import Mathlib

set_option maxHeartbeats 1000000

namespace PdfSpec

/-!
Shallow embedding of `pyhanko/pdf_utils/writer.py`: the object store
(`BasePdfFileWriter`), object streams, the cross-reference encoders, the
write pipeline, the import engine and the page-tree maintainer.
-/

/-- An indirect reference: owning-document token, object id, generation
(`generic.Reference` / `generic.IndirectObject`). -/
structure Ref where
  pdf : Nat
  idnum : Nat
  gen : Nat
deriving DecidableEq, Repr

/-- The PDF value model (`pyhanko.pdf_utils.generic`), as consumed by the
writer: scalars, references, arrays, dictionaries, stream objects (dictionary
plus raw data) and decrypted-object proxies. -/
inductive PdfObj where
  | null
  | boolean (b : Bool)
  | num (n : Int)
  | name (s : String)
  | str (s : String)
  | ref (r : Ref)
  | array (elems : List PdfObj)
  | dict (entries : List (String × PdfObj))
  | stream (entries : List (String × PdfObj)) (data : List Nat)
  | proxy (decrypted : PdfObj)

/-- `OBJSTREAM_FORBIDDEN = (generic.IndirectObject, generic.StreamObject)`. -/
def PdfObj.objstreamForbidden : PdfObj → Bool
  | .ref _ => true
  | .stream _ _ => true
  | _ => false

/-- Error outcomes raised by the writer code. -/
inductive WErr where
  | valueError
  | keyError
  | pdfWriteError
  | typeError
  | assertionError
deriving DecidableEq, Repr

/-- Association-list lookup (Python `dict` access, newest binding wins). -/
def lookupA {α β : Type} [DecidableEq α] : List (α × β) → α → Option β
  | [], _ => none
  | (k, v) :: rest, a => if k = a then some v else lookupA rest a

/-- Association-list update (Python `dict` assignment: replace in place if the
key exists, append otherwise). -/
def upsertA {α β : Type} [DecidableEq α] : List (α × β) → α → β → List (α × β)
  | [], k, v => [(k, v)]
  | (k', v') :: rest, k, v =>
    if k' = k then (k, v) :: rest else (k', v') :: upsertA rest k v

/-- `ObjectStream`: ordered map id → object, plus a compression flag. -/
structure ObjectStream where
  objRefs : List (Nat × PdfObj)
  compress : Bool

/-- `ObjectStream.add_object`: raises `TypeError` on stream objects and bare
references, otherwise records the object under its id. -/
def ObjectStream.addObject (s : ObjectStream) (idnum : Nat) (obj : PdfObj) :
    Except WErr ObjectStream :=
  if obj.objstreamForbidden then .error .typeError
  else .ok { s with objRefs := upsertA s.objRefs idnum obj }

/-- Document token of the writer itself (`self` in `_resolves_objs_from`). -/
def selfTok : Nat := 0

/-- The writer's mutable state (`BasePdfFileWriter.__init__`): `objects`
keyed by `(generation, idnum)`, the registered object streams,
`objs_in_streams` keyed by id, the id allocation cursor `_lastobj_id` and the
pending placeholder set `_allocated_placeholders`. -/
structure WState where
  objects : List ((Nat × Nat) × PdfObj)
  objectStreams : List ObjectStream
  objsInStreams : List (Nat × PdfObj)
  lastobjId : Nat
  allocatedPlaceholders : List Nat

/-- `BasePdfFileWriter.get_object`: foreign references are a `ValueError`;
otherwise look in `objects`, then (generation 0 only) report `NullObject` for
pending placeholders, then look in `objs_in_streams`, else `KeyError`. -/
def getObject (st : WState) (ido : Ref) : Except WErr PdfObj :=
  if ido.pdf ≠ selfTok then .error .valueError
  else
    match lookupA st.objects (ido.gen, ido.idnum) with
    | some obj => .ok obj
    | none =>
      if ido.gen = 0 then
        if ido.idnum ∈ st.allocatedPlaceholders then .ok .null
        else
          match lookupA st.objsInStreams ido.idnum with
          | some obj => .ok obj
          | none => .error .keyError
      else .error .keyError

/-- `BasePdfFileWriter.allocate_placeholder`: reserve id `_lastobj_id + 1`,
mark it pending, return a generation-0 reference to it. -/
def allocatePlaceholder (st : WState) : WState × Ref :=
  let idnum := st.lastobjId + 1
  ({ st with
      allocatedPlaceholders := idnum :: st.allocatedPlaceholders,
      lastobjId := idnum },
    ⟨selfTok, idnum, 0⟩)

/-- Storage step of `BasePdfFileWriter.add_object`: the object goes into
`objects` directly, or into a registered object stream and `objs_in_streams`
(an unregistered stream is a `PdfWriteError`; the stream itself may raise
`TypeError`). Object streams are addressed by their registration index. -/
def storeAdd (st : WState) (obj : PdfObj) (objStream : Option Nat)
    (idnum : Nat) : Except WErr WState :=
  match objStream with
  | none => .ok { st with objects := upsertA st.objects (0, idnum) obj }
  | some six =>
    match st.objectStreams[six]? with
    | some ostream =>
      match ostream.addObject idnum obj with
      | .ok ostream' =>
        .ok { st with objectStreams := st.objectStreams.set six ostream',
                      objsInStreams := upsertA st.objsInStreams idnum obj }
      | .error e => .error e
    | none => .error .pdfWriteError

/-- Final bookkeeping of `add_object`: population consumes the placeholder,
a fresh add advances the cursor. -/
def finishAdd (st₁ : WState) (idnum : Nat) (preallocated : Bool) : WState :=
  if preallocated then
    { st₁ with allocatedPlaceholders := st₁.allocatedPlaceholders.erase idnum }
  else { st₁ with lastobjId := st₁.lastobjId + 1 }

/-- `BasePdfFileWriter.add_object`. A manually supplied `idnum` must be a
pending placeholder (else `PdfWriteError`); without one the fresh id
`_lastobj_id + 1` is taken. -/
def addObject (st : WState) (obj : PdfObj) (objStream : Option Nat)
    (idnum? : Option Nat) : Except WErr (WState × Ref) :=
  match idnum? with
  | some idnum =>
    if idnum ∈ st.allocatedPlaceholders then
      match storeAdd st obj objStream idnum with
      | .ok st₁ => .ok (finishAdd st₁ idnum true, ⟨selfTok, idnum, 0⟩)
      | .error e => .error e
    else .error .pdfWriteError
  | none =>
    match storeAdd st obj objStream (st.lastobjId + 1) with
    | .ok st₁ =>
      .ok (finishAdd st₁ (st.lastobjId + 1) false, ⟨selfTok, st.lastobjId + 1, 0⟩)
    | .error e => .error e

/-- One writer call: `allocate_placeholder` or `add_object`. -/
inductive WOp where
  | alloc
  | add (obj : PdfObj) (objStream : Option Nat) (idnum? : Option Nat)

/-- Execute one call; a raised error leaves the state unchanged (no partial
mutation happens before any raise in the source). -/
def runOp (st : WState) : WOp → WState × Option Ref
  | .alloc => let p := allocatePlaceholder st; (p.1, some p.2)
  | .add obj os id? =>
    match addObject st obj os id? with
    | .ok (st', r) => (st', some r)
    | .error _ => (st, none)

/-- Execute a sequence of calls. -/
def runOps (st : WState) : List WOp → WState
  | [] => st
  | op :: rest => runOps (runOp st op).1 rest

/-- An allocation event: `allocate_placeholder`, or `add_object` without a
manual id. (`add_object` with a manual id populates an existing identity.) -/
def WOp.isAllocation : WOp → Bool
  | .alloc => true
  | .add _ _ none => true
  | .add _ _ (some _) => false

/-- Does this call populate placeholder `i`? -/
def WOp.populates (op : WOp) (i : Nat) : Bool :=
  match op with
  | .add _ _ (some j) => j = i
  | _ => false

/-- References returned by the allocation events of a call sequence. -/
def allocRefs (st : WState) : List WOp → List Ref
  | [] => []
  | op :: rest =>
    let p := runOp st op
    match p.2, op.isAllocation with
    | some r, true => r :: allocRefs p.1 rest
    | _, _ => allocRefs p.1 rest

/-- Store well-formedness: pending placeholders are allocated, unpopulated and
pairwise distinct; every populated id is within the allocation cursor. -/
def WState.wf (st : WState) : Prop :=
  (∀ p ∈ st.allocatedPlaceholders,
      p ≤ st.lastobjId ∧ lookupA st.objects (0, p) = none ∧
        lookupA st.objsInStreams p = none) ∧
  (∀ kv ∈ st.objects, kv.1.2 ≤ st.lastobjId) ∧
  (∀ kv ∈ st.objsInStreams, kv.1 ≤ st.lastobjId) ∧
  st.allocatedPlaceholders.Nodup

/-- Pending placeholder `i`: allocated, unpopulated, within the cursor. -/
def pendingAt (st : WState) (i : Nat) : Prop :=
  i ∈ st.allocatedPlaceholders ∧ i ≤ st.lastobjId ∧
    lookupA st.objects (0, i) = none ∧ lookupA st.objsInStreams i = none

/-- Id `i` has been populated with value `v`. -/
def populatedWith (st : WState) (i : Nat) (v : PdfObj) : Prop :=
  i ∉ st.allocatedPlaceholders ∧ i ≤ st.lastobjId ∧
    (lookupA st.objects (0, i) = some v ∨
      (lookupA st.objects (0, i) = none ∧ lookupA st.objsInStreams i = some v))

section AListLemmas

variable {α β : Type} [DecidableEq α]

theorem lookupA_upsert_self (l : List (α × β)) (k : α) (v : β) :
    lookupA (upsertA l k v) k = some v := by
  induction l with
  | nil => simp [upsertA, lookupA]
  | cons kv rest ih =>
    obtain ⟨a, b⟩ := kv
    by_cases h : a = k <;> simp [upsertA, lookupA, h, ih]

theorem lookupA_upsert_ne (l : List (α × β)) {k k' : α} (v : β) (h : k' ≠ k) :
    lookupA (upsertA l k v) k' = lookupA l k' := by
  have hk : k ≠ k' := Ne.symm h
  induction l with
  | nil => simp [upsertA, lookupA, hk]
  | cons ab rest ih =>
    obtain ⟨a, b⟩ := ab
    by_cases ha : a = k
    · subst ha
      simp [upsertA, lookupA, hk]
    · simp [upsertA, lookupA, ha, ih]

theorem mem_upsertA {l : List (α × β)} {k : α} {v : β} {kv : α × β}
    (h : kv ∈ upsertA l k v) : kv ∈ l ∨ kv = (k, v) := by
  induction l with
  | nil =>
    simp only [upsertA, List.mem_singleton] at h
    exact Or.inr h
  | cons ab rest ih =>
    obtain ⟨a, b⟩ := ab
    by_cases ha : a = k
    · subst ha
      simp only [upsertA, if_pos rfl] at h
      rcases List.mem_cons.mp h with h1 | h1
      · exact Or.inr h1
      · exact Or.inl (List.mem_cons_of_mem _ h1)
    · simp only [upsertA, if_neg ha] at h
      rcases List.mem_cons.mp h with h1 | h1
      · exact Or.inl (List.mem_cons.mpr (Or.inl h1))
      · rcases ih h1 with h2 | h2
        · exact Or.inl (List.mem_cons_of_mem _ h2)
        · exact Or.inr h2

theorem lookupA_mem {l : List (α × β)} {k : α} {v : β}
    (h : lookupA l k = some v) : (k, v) ∈ l := by
  induction l with
  | nil => simp [lookupA] at h
  | cons ab rest ih =>
    obtain ⟨a, b⟩ := ab
    simp only [lookupA] at h
    by_cases ha : a = k
    · subst ha
      rw [if_pos rfl] at h
      injection h with hb
      subst hb
      exact List.mem_cons_self _ _
    · rw [if_neg ha] at h
      exact List.mem_cons_of_mem _ (ih h)

theorem lookupA_eq_none {l : List (α × β)} {k : α}
    (h : ∀ kv ∈ l, kv.1 ≠ k) : lookupA l k = none := by
  induction l with
  | nil => rfl
  | cons ab rest ih =>
    obtain ⟨a, b⟩ := ab
    have ha : a ≠ k := h (a, b) (List.mem_cons_self _ _)
    simp only [lookupA, if_neg ha]
    exact ih fun kv hkv => h kv (List.mem_cons_of_mem _ hkv)

end AListLemmas

/-- Inversion of the storage step. -/
theorem storeAdd_inv {st : WState} {obj : PdfObj} {os : Option Nat} {idnum : Nat}
    {st₁ : WState} (h : storeAdd st obj os idnum = .ok st₁) :
    st₁ = { st with objects := upsertA st.objects (0, idnum) obj } ∨
    ∃ six ostream', os = some six ∧ obj.objstreamForbidden = false ∧
      st₁ = { st with objectStreams := st.objectStreams.set six ostream',
                      objsInStreams := upsertA st.objsInStreams idnum obj } := by
  match os with
  | none =>
    simp only [storeAdd, Except.ok.injEq] at h
    exact Or.inl h.symm
  | some six =>
    simp only [storeAdd] at h
    match hx : st.objectStreams[six]? with
    | some ostream =>
      rw [hx] at h
      by_cases hf : obj.objstreamForbidden
      · simp [ObjectStream.addObject, hf] at h
      · simp only [ObjectStream.addObject, hf, Bool.false_eq_true, if_false,
          Except.ok.injEq] at h
        exact Or.inr ⟨six, _, rfl, by simp [hf], h.symm⟩
    | none => rw [hx] at h; exact absurd h (by simp)

theorem storeAdd_lastobj {st : WState} {obj os idnum st₁}
    (h : storeAdd st obj os idnum = .ok st₁) : st₁.lastobjId = st.lastobjId := by
  rcases storeAdd_inv h with h1 | ⟨six, os', _, _, h1⟩ <;> subst h1 <;> rfl

theorem storeAdd_placeholders {st : WState} {obj os idnum st₁}
    (h : storeAdd st obj os idnum = .ok st₁) :
    st₁.allocatedPlaceholders = st.allocatedPlaceholders := by
  rcases storeAdd_inv h with h1 | ⟨six, os', _, _, h1⟩ <;> subst h1 <;> rfl

theorem storeAdd_objects_other {st : WState} {obj os idnum st₁}
    (h : storeAdd st obj os idnum = .ok st₁) {k : Nat × Nat} (hk : k ≠ (0, idnum)) :
    lookupA st₁.objects k = lookupA st.objects k := by
  rcases storeAdd_inv h with h1 | ⟨six, os', _, _, h1⟩ <;> subst h1
  · exact lookupA_upsert_ne _ _ hk
  · rfl

theorem storeAdd_streams_other {st : WState} {obj os idnum st₁}
    (h : storeAdd st obj os idnum = .ok st₁) {j : Nat} (hj : j ≠ idnum) :
    lookupA st₁.objsInStreams j = lookupA st.objsInStreams j := by
  rcases storeAdd_inv h with h1 | ⟨six, os', _, _, h1⟩ <;> subst h1
  · rfl
  · exact lookupA_upsert_ne _ _ hj

theorem storeAdd_stores {st : WState} {obj os idnum st₁}
    (h : storeAdd st obj os idnum = .ok st₁) :
    lookupA st₁.objects (0, idnum) = some obj ∨
      (lookupA st₁.objects (0, idnum) = lookupA st.objects (0, idnum) ∧
        lookupA st₁.objsInStreams idnum = some obj) := by
  rcases storeAdd_inv h with h1 | ⟨six, os', _, _, h1⟩ <;> subst h1
  · exact Or.inl (lookupA_upsert_self _ _ _)
  · exact Or.inr ⟨rfl, lookupA_upsert_self _ _ _⟩

theorem storeAdd_objects_bound {st : WState} {obj os idnum st₁} {B : Nat}
    (h : storeAdd st obj os idnum = .ok st₁)
    (hb : ∀ kv ∈ st.objects, kv.1.2 ≤ B) (hid : idnum ≤ B) :
    ∀ kv ∈ st₁.objects, kv.1.2 ≤ B := by
  rcases storeAdd_inv h with h1 | ⟨six, os', _, _, h1⟩ <;> subst h1
  · intro kv hkv
    rcases mem_upsertA hkv with h2 | h2
    · exact hb kv h2
    · subst h2; exact hid
  · exact hb

theorem storeAdd_streams_bound {st : WState} {obj os idnum st₁} {B : Nat}
    (h : storeAdd st obj os idnum = .ok st₁)
    (hb : ∀ kv ∈ st.objsInStreams, kv.1 ≤ B) (hid : idnum ≤ B) :
    ∀ kv ∈ st₁.objsInStreams, kv.1 ≤ B := by
  rcases storeAdd_inv h with h1 | ⟨six, os', _, _, h1⟩ <;> subst h1
  · exact hb
  · intro kv hkv
    rcases mem_upsertA hkv with h2 | h2
    · exact hb kv h2
    · subst h2; exact hid

/-- Inversion of a fresh `add_object` (no manual id). -/
theorem addObject_fresh_inv {st : WState} {obj os st' r}
    (h : addObject st obj os none = .ok (st', r)) :
    ∃ st₁, storeAdd st obj os (st.lastobjId + 1) = .ok st₁ ∧
      st' = { st₁ with lastobjId := st₁.lastobjId + 1 } ∧
      r = ⟨selfTok, st.lastobjId + 1, 0⟩ := by
  simp only [addObject] at h
  match hs : storeAdd st obj os (st.lastobjId + 1) with
  | .ok st₁ =>
    rw [hs] at h
    simp only [Except.ok.injEq, Prod.mk.injEq] at h
    exact ⟨st₁, rfl, by simp [finishAdd] at h ⊢; exact ⟨h.1.symm, h.2.symm⟩⟩
  | .error e => rw [hs] at h; exact absurd h (by simp)

/-- Inversion of a populating `add_object` (manual id). -/
theorem addObject_pop_inv {st : WState} {obj os i st' r}
    (h : addObject st obj os (some i) = .ok (st', r)) :
    i ∈ st.allocatedPlaceholders ∧
    ∃ st₁, storeAdd st obj os i = .ok st₁ ∧
      st' = { st₁ with
              allocatedPlaceholders := st₁.allocatedPlaceholders.erase i } ∧
      r = ⟨selfTok, i, 0⟩ := by
  simp only [addObject] at h
  by_cases hm : i ∈ st.allocatedPlaceholders
  · refine ⟨hm, ?_⟩
    rw [if_pos hm] at h
    match hs : storeAdd st obj os i with
    | .ok st₁ =>
      rw [hs] at h
      simp only [Except.ok.injEq, Prod.mk.injEq] at h
      exact ⟨st₁, rfl, by simp [finishAdd] at h ⊢; exact ⟨h.1.symm, h.2.symm⟩⟩
    | .error e => rw [hs] at h; exact absurd h (by simp)
  · rw [if_neg hm] at h
    exact absurd h (by simp)

theorem wf_allocate {st : WState} (h : st.wf) : (allocatePlaceholder st).1.wf := by
  obtain ⟨h1, h2, h3, h4⟩ := h
  refine ⟨?_, ?_, ?_, ?_⟩
  · intro p hp
    rcases List.mem_cons.mp hp with hp | hp
    · subst hp
      refine ⟨le_refl _, ?_, ?_⟩
      · exact lookupA_eq_none fun kv hkv heq => by
          have := h2 kv hkv; rw [heq] at this; omega
      · exact lookupA_eq_none fun kv hkv heq => by
          have := h3 kv hkv; rw [heq] at this; omega
    · obtain ⟨ha, hb, hc⟩ := h1 p hp
      exact ⟨Nat.le_succ_of_le ha, hb, hc⟩
  · exact fun kv hkv => Nat.le_succ_of_le (h2 kv hkv)
  · exact fun kv hkv => Nat.le_succ_of_le (h3 kv hkv)
  · refine List.Nodup.cons ?_ h4
    intro hmem
    have := (h1 _ hmem).1
    omega

theorem pending_allocate {st : WState} (h : st.wf) :
    pendingAt (allocatePlaceholder st).1 (st.lastobjId + 1) := by
  obtain ⟨h1, h2, h3, h4⟩ := h
  refine ⟨List.mem_cons_self _ _, le_refl _, ?_, ?_⟩
  · exact lookupA_eq_none fun kv hkv heq => by
      have := h2 kv hkv; rw [heq] at this; omega
  · exact lookupA_eq_none fun kv hkv heq => by
      have := h3 kv hkv; rw [heq] at this; omega

theorem wf_addObject {st : WState} {obj os id? st' r} (hwf : st.wf)
    (h : addObject st obj os id? = .ok (st', r)) : st'.wf := by
  obtain ⟨h1, h2, h3, h4⟩ := hwf
  match id? with
  | none =>
    obtain ⟨st₁, hs, hst', hr⟩ := addObject_fresh_inv h
    subst hst'
    have hpl := storeAdd_placeholders hs
    have hlast := storeAdd_lastobj hs
    refine ⟨?_, ?_, ?_, ?_⟩
    · intro p hp
      rw [hpl] at hp
      obtain ⟨ha, hb, hc⟩ := h1 p hp
      refine ⟨by simp [hlast]; omega, ?_, ?_⟩
      · show lookupA st₁.objects (0, p) = none
        rw [storeAdd_objects_other hs (by simp; omega)]
        exact hb
      · show lookupA st₁.objsInStreams p = none
        rw [storeAdd_streams_other hs (by omega)]
        exact hc
    · have := storeAdd_objects_bound hs
        (B := st.lastobjId + 1) (fun kv hkv => Nat.le_succ_of_le (h2 kv hkv))
        (le_refl _)
      intro kv hkv
      have h5 := this kv hkv
      simp [hlast]
      omega
    · have := storeAdd_streams_bound hs
        (B := st.lastobjId + 1) (fun kv hkv => Nat.le_succ_of_le (h3 kv hkv))
        (le_refl _)
      intro kv hkv
      have h5 := this kv hkv
      simp [hlast]
      omega
    · show st₁.allocatedPlaceholders.Nodup
      rw [hpl]
      exact h4
  | some i =>
    obtain ⟨hm, st₁, hs, hst', hr⟩ := addObject_pop_inv h
    subst hst'
    have hpl := storeAdd_placeholders hs
    have hlast := storeAdd_lastobj hs
    have hi : i ≤ st.lastobjId := (h1 i hm).1
    refine ⟨?_, ?_, ?_, ?_⟩
    · intro p hp
      simp only [hpl] at hp
      have hp' := List.mem_of_mem_erase hp
      have hpi : p ≠ i := ((List.Nodup.mem_erase_iff h4).mp hp).1
      obtain ⟨ha, hb, hc⟩ := h1 p hp'
      refine ⟨by simp [hlast]; omega, ?_, ?_⟩
      · show lookupA st₁.objects (0, p) = none
        rw [storeAdd_objects_other hs (by simp [hpi])]
        exact hb
      · show lookupA st₁.objsInStreams p = none
        rw [storeAdd_streams_other hs hpi]
        exact hc
    · have := storeAdd_objects_bound hs (B := st.lastobjId) h2 hi
      intro kv hkv
      have h5 := this kv hkv
      simp [hlast]
      omega
    · have := storeAdd_streams_bound hs (B := st.lastobjId) h3 hi
      intro kv hkv
      have h5 := this kv hkv
      simp [hlast]
      omega
    · show (st₁.allocatedPlaceholders.erase i).Nodup
      rw [hpl]
      exact List.Nodup.erase _ h4

theorem wf_runOp {st : WState} (hwf : st.wf) (op : WOp) : (runOp st op).1.wf := by
  match op with
  | .alloc => exact wf_allocate hwf
  | .add obj os id? =>
    simp only [runOp]
    match h : addObject st obj os id? with
    | .ok (st', r) => exact wf_addObject hwf h
    | .error e => exact hwf

theorem wf_runOps {st : WState} (hwf : st.wf) (ops : List WOp) :
    (runOps st ops).wf := by
  induction ops generalizing st with
  | nil => exact hwf
  | cons op rest ih => exact ih (wf_runOp hwf op)

theorem getObject_pending {st : WState} {i : Nat} (h : pendingAt st i) :
    getObject st ⟨selfTok, i, 0⟩ = .ok .null := by
  obtain ⟨h1, _, h3, _⟩ := h
  simp [getObject, h1, h3]

theorem getObject_populated {st : WState} {i : Nat} {v : PdfObj}
    (h : populatedWith st i v) : getObject st ⟨selfTok, i, 0⟩ = .ok v := by
  obtain ⟨h1, _, h3⟩ := h
  rcases h3 with h3 | ⟨h3, h4⟩
  · simp [getObject, h3]
  · simp [getObject, h1, h3, h4]

theorem pending_runOp {st : WState} {i : Nat} (hwf : st.wf) (h : pendingAt st i)
    {op : WOp} (hop : op.populates i = false) : pendingAt (runOp st op).1 i := by
  obtain ⟨hm, hle, hobj, hstr⟩ := h
  match op with
  | .alloc =>
    exact ⟨List.mem_cons_of_mem _ hm, Nat.le_succ_of_le hle, hobj, hstr⟩
  | .add obj os none =>
    simp only [runOp]
    match ha : addObject st obj os none with
    | .error e => exact ⟨hm, hle, hobj, hstr⟩
    | .ok (st', r) =>
      obtain ⟨st₁, hs, hst', hr⟩ := addObject_fresh_inv ha
      subst hst'
      refine ⟨?_, ?_, ?_, ?_⟩
      · show i ∈ st₁.allocatedPlaceholders
        rw [storeAdd_placeholders hs]; exact hm
      · have := storeAdd_lastobj hs
        show i ≤ st₁.lastobjId + 1
        omega
      · show lookupA st₁.objects (0, i) = none
        rw [storeAdd_objects_other hs (by simp; omega)]; exact hobj
      · show lookupA st₁.objsInStreams i = none
        rw [storeAdd_streams_other hs (by omega)]; exact hstr
  | .add obj os (some j) =>
    have hji : j ≠ i := by
      simpa [WOp.populates] using hop
    simp only [runOp]
    match ha : addObject st obj os (some j) with
    | .error e => exact ⟨hm, hle, hobj, hstr⟩
    | .ok (st', r) =>
      obtain ⟨hjm, st₁, hs, hst', hr⟩ := addObject_pop_inv ha
      subst hst'
      refine ⟨?_, ?_, ?_, ?_⟩
      · show i ∈ st₁.allocatedPlaceholders.erase j
        rw [storeAdd_placeholders hs]
        exact (List.Nodup.mem_erase_iff hwf.2.2.2).mpr ⟨Ne.symm hji, hm⟩
      · have := storeAdd_lastobj hs
        show i ≤ st₁.lastobjId
        omega
      · show lookupA st₁.objects (0, i) = none
        rw [storeAdd_objects_other hs (by simp [Ne.symm hji])]; exact hobj
      · show lookupA st₁.objsInStreams i = none
        rw [storeAdd_streams_other hs (Ne.symm hji)]; exact hstr

theorem pending_runOps {st : WState} {i : Nat} (hwf : st.wf) (h : pendingAt st i)
    {ops : List WOp} (hops : ∀ op ∈ ops, op.populates i = false) :
    pendingAt (runOps st ops) i := by
  induction ops generalizing st with
  | nil => exact h
  | cons op rest ih =>
    exact ih (wf_runOp hwf op)
      (pending_runOp hwf h (hops op (List.mem_cons_self _ _)))
      fun o ho => hops o (List.mem_cons_of_mem _ ho)

/-- Populating a pending placeholder makes it resolve to the added object. -/
theorem populated_addObject {st : WState} {i : Nat} {obj os st' r}
    (hwf : st.wf) (hp : pendingAt st i)
    (h : addObject st obj os (some i) = .ok (st', r)) :
    populatedWith st' i obj ∧ r = ⟨selfTok, i, 0⟩ := by
  obtain ⟨hm, st₁, hs, hst', hr⟩ := addObject_pop_inv h
  subst hst'
  refine ⟨⟨?_, ?_, ?_⟩, hr⟩
  · show i ∉ st₁.allocatedPlaceholders.erase i
    rw [storeAdd_placeholders hs]
    intro hc
    exact ((List.Nodup.mem_erase_iff hwf.2.2.2).mp hc).1 rfl
  · have := storeAdd_lastobj hs
    show i ≤ st₁.lastobjId
    have := hp.2.1
    omega
  · rcases storeAdd_stores hs with h1 | ⟨h1, h2⟩
    · exact Or.inl h1
    · exact Or.inr ⟨by rw [h1]; exact hp.2.2.1, h2⟩

theorem populated_runOp {st : WState} {i : Nat} {v : PdfObj}
    (h : populatedWith st i v) (op : WOp) :
    populatedWith (runOp st op).1 i v := by
  obtain ⟨hm, hle, hval⟩ := h
  match op with
  | .alloc =>
    refine ⟨?_, Nat.le_succ_of_le hle, hval⟩
    intro hc
    rcases List.mem_cons.mp hc with hc | hc
    · omega
    · exact hm hc
  | .add obj os none =>
    simp only [runOp]
    match ha : addObject st obj os none with
    | .error e => exact ⟨hm, hle, hval⟩
    | .ok (st', r) =>
      obtain ⟨st₁, hs, hst', hr⟩ := addObject_fresh_inv ha
      subst hst'
      have hlast := storeAdd_lastobj hs
      have hne : (0, i) ≠ ((0 : Nat), st.lastobjId + 1) := by simp; omega
      refine ⟨?_, ?_, ?_⟩
      · show i ∉ st₁.allocatedPlaceholders
        rw [storeAdd_placeholders hs]; exact hm
      · show i ≤ st₁.lastobjId + 1
        omega
      · show lookupA st₁.objects (0, i) = some v ∨
          (lookupA st₁.objects (0, i) = none ∧
            lookupA st₁.objsInStreams i = some v)
        rw [storeAdd_objects_other hs hne, storeAdd_streams_other hs (by omega)]
        exact hval
  | .add obj os (some j) =>
    simp only [runOp]
    match ha : addObject st obj os (some j) with
    | .error e => exact ⟨hm, hle, hval⟩
    | .ok (st', r) =>
      obtain ⟨hjm, st₁, hs, hst', hr⟩ := addObject_pop_inv ha
      subst hst'
      have hlast := storeAdd_lastobj hs
      have hij : j ≠ i := fun hc => hm (hc ▸ hjm)
      refine ⟨?_, ?_, ?_⟩
      · show i ∉ st₁.allocatedPlaceholders.erase j
        rw [storeAdd_placeholders hs]
        exact fun hc => hm (List.mem_of_mem_erase hc)
      · show i ≤ st₁.lastobjId
        omega
      · show lookupA st₁.objects (0, i) = some v ∨
          (lookupA st₁.objects (0, i) = none ∧
            lookupA st₁.objsInStreams i = some v)
        rw [storeAdd_objects_other hs (by simp [Ne.symm hij]),
          storeAdd_streams_other hs (Ne.symm hij)]
        exact hval

theorem populated_runOps {st : WState} {i : Nat} {v : PdfObj} (hwf : st.wf)
    (h : populatedWith st i v) (ops : List WOp) :
    populatedWith (runOps st ops) i v := by
  induction ops generalizing st with
  | nil => exact h
  | cons op rest ih => exact ih (wf_runOp hwf op) (populated_runOp h op)

/-- C1, placeholder safety. After `allocate_placeholder()` returns reference
`r`, any sequence of further writer calls that does not populate `r`'s id
leaves `get_object r` returning the null object (never an error, never stale
data); once `add_object(obj, idnum=r.idnum)` succeeds, `get_object r` returns
`obj`, and keeps returning `obj` after any further calls whatsoever. -/
theorem c1_placeholder_safety (st : WState) (hwf : st.wf) (ops : List WOp)
    (hops : ∀ op ∈ ops, op.populates (allocatePlaceholder st).2.idnum = false)
    (obj : PdfObj) (os : Option Nat) (st₃ : WState) (r' : Ref) :
    getObject (runOps (allocatePlaceholder st).1 ops)
        (allocatePlaceholder st).2 = .ok .null ∧
    (addObject (runOps (allocatePlaceholder st).1 ops) obj os
          (some (allocatePlaceholder st).2.idnum) = .ok (st₃, r') →
      ∀ ops₂ : List WOp,
        getObject (runOps st₃ ops₂) (allocatePlaceholder st).2 = .ok obj) := by
  have hwf₁ : (allocatePlaceholder st).1.wf := wf_allocate hwf
  have hpend : pendingAt (allocatePlaceholder st).1 (st.lastobjId + 1) :=
    pending_allocate hwf
  have hid : (allocatePlaceholder st).2 = ⟨selfTok, st.lastobjId + 1, 0⟩ := rfl
  rw [hid] at hops ⊢
  have hpend₂ : pendingAt (runOps (allocatePlaceholder st).1 ops)
      (st.lastobjId + 1) := pending_runOps hwf₁ hpend hops
  have hwf₂ := wf_runOps hwf₁ ops
  refine ⟨getObject_pending hpend₂, fun hadd ops₂ => ?_⟩
  obtain ⟨hpop, _⟩ := populated_addObject hwf₂ hpend₂ hadd
  have hwf₃ := wf_addObject hwf₂ hadd
  exact getObject_populated (populated_runOps hwf₃ hpop ops₂)

theorem runOp_lastobj_mono (st : WState) (op : WOp) :
    st.lastobjId ≤ (runOp st op).1.lastobjId := by
  match op with
  | .alloc => exact Nat.le_succ _
  | .add obj os id? =>
    simp only [runOp]
    match ha : addObject st obj os id? with
    | .error e => exact le_refl _
    | .ok (st', r) =>
      match id? with
      | none =>
        obtain ⟨st₁, hs, hst', hr⟩ := addObject_fresh_inv ha
        subst hst'
        have := storeAdd_lastobj hs
        show st.lastobjId ≤ st₁.lastobjId + 1
        omega
      | some i =>
        obtain ⟨hm, st₁, hs, hst', hr⟩ := addObject_pop_inv ha
        subst hst'
        have := storeAdd_lastobj hs
        show st.lastobjId ≤ st₁.lastobjId
        omega

theorem runOps_lastobj_mono (st : WState) (ops : List WOp) :
    st.lastobjId ≤ (runOps st ops).lastobjId := by
  induction ops generalizing st with
  | nil => exact le_refl _
  | cons op rest ih => exact le_trans (runOp_lastobj_mono st op) (ih _)

/-- Every allocation event hands out exactly the next id, at generation 0,
and leaves the cursor at that id. -/
theorem allocation_event {st : WState} {op : WOp} {r : Ref}
    (hall : op.isAllocation = true) (h : (runOp st op).2 = some r) :
    r.idnum = st.lastobjId + 1 ∧ r.gen = 0 ∧
      (runOp st op).1.lastobjId = st.lastobjId + 1 := by
  match op with
  | .alloc =>
    have hre : r = ⟨selfTok, st.lastobjId + 1, 0⟩ := by
      simpa [runOp, allocatePlaceholder] using h.symm
    subst hre
    exact ⟨rfl, rfl, rfl⟩
  | .add obj os none =>
    match ha : addObject st obj os none with
    | .error e =>
      rw [show (runOp st (.add obj os none)).2 = none by simp [runOp, ha]] at h
      cases h
    | .ok (st', r') =>
      have h1 : (runOp st (.add obj os none)).1 = st' := by simp [runOp, ha]
      have h2 : (runOp st (.add obj os none)).2 = some r' := by simp [runOp, ha]
      rw [h2] at h
      injection h with h
      subst h
      obtain ⟨st₁, hs, hst', hr⟩ := addObject_fresh_inv ha
      subst hst'
      subst hr
      have := storeAdd_lastobj hs
      rw [h1]
      refine ⟨rfl, rfl, ?_⟩
      show st₁.lastobjId + 1 = st.lastobjId + 1
      omega
  | .add obj os (some j) => simp [WOp.isAllocation] at hall

theorem allocRefs_idnum_gt {ops : List WOp} :
    ∀ st : WState, ∀ r ∈ allocRefs st ops, st.lastobjId < r.idnum := by
  induction ops with
  | nil => intro st r hr; simp [allocRefs] at hr
  | cons op rest ih =>
    intro st r hr
    simp only [allocRefs] at hr
    rcases h2 : (runOp st op).2 with _ | r' <;>
      cases hall : op.isAllocation <;> rw [h2, hall] at hr
    · exact lt_of_le_of_lt (runOp_lastobj_mono st op) (ih _ r hr)
    · exact lt_of_le_of_lt (runOp_lastobj_mono st op) (ih _ r hr)
    · exact lt_of_le_of_lt (runOp_lastobj_mono st op) (ih _ r hr)
    · rcases List.mem_cons.mp hr with hr2 | hr2
      · subst hr2
        have := (allocation_event hall h2).1
        omega
      · have h3 := (allocation_event hall h2).2.2
        have := ih _ r hr2
        omega

theorem allocRefs_pairwise (ops : List WOp) (st : WState) :
    (allocRefs st ops).Pairwise (fun a b => a.idnum < b.idnum) := by
  induction ops generalizing st with
  | nil => simp [allocRefs]
  | cons op rest ih =>
    simp only [allocRefs]
    rcases h2 : (runOp st op).2 with _ | r' <;> cases hall : op.isAllocation
    · exact ih _
    · exact ih _
    · exact ih _
    · show List.Pairwise (fun a b => a.idnum < b.idnum)
        (r' :: allocRefs (runOp st op).1 rest)
      refine List.Pairwise.cons ?_ (ih _)
      intro b hb
      have h3 := (allocation_event hall h2).2.2
      have h4 := (allocation_event hall h2).1
      have := allocRefs_idnum_gt _ b hb
      omega

theorem objects_stable_runOp {st : WState} {k : Nat × Nat} {v : PdfObj}
    (hwf : st.wf) (h : lookupA st.objects k = some v) (op : WOp) :
    lookupA (runOp st op).1.objects k = some v := by
  match op with
  | .alloc => exact h
  | .add obj os id? =>
    simp only [runOp]
    match ha : addObject st obj os id? with
    | .error e => exact h
    | .ok (st', r) =>
      match id? with
      | none =>
        obtain ⟨st₁, hs, hst', hr⟩ := addObject_fresh_inv ha
        subst hst'
        show lookupA st₁.objects k = some v
        have hk := hwf.2.1 _ (lookupA_mem h)
        have hne : k ≠ (0, st.lastobjId + 1) := by
          intro hc; rw [hc] at hk; simp at hk
        rw [storeAdd_objects_other hs hne]
        exact h
      | some i =>
        obtain ⟨hm, st₁, hs, hst', hr⟩ := addObject_pop_inv ha
        subst hst'
        show lookupA st₁.objects k = some v
        have hnone := (hwf.1 i hm).2.1
        have hne : k ≠ (0, i) := by
          intro hc; rw [hc] at h; rw [h] at hnone; cases hnone
        rw [storeAdd_objects_other hs hne]
        exact h

theorem streams_stable_runOp {st : WState} {j : Nat} {v : PdfObj}
    (hwf : st.wf) (h : lookupA st.objsInStreams j = some v) (op : WOp) :
    lookupA (runOp st op).1.objsInStreams j = some v := by
  match op with
  | .alloc => exact h
  | .add obj os id? =>
    simp only [runOp]
    match ha : addObject st obj os id? with
    | .error e => exact h
    | .ok (st', r) =>
      match id? with
      | none =>
        obtain ⟨st₁, hs, hst', hr⟩ := addObject_fresh_inv ha
        subst hst'
        show lookupA st₁.objsInStreams j = some v
        have hk := hwf.2.2.1 _ (lookupA_mem h)
        rw [storeAdd_streams_other hs (by simp at hk; omega)]
        exact h
      | some i =>
        obtain ⟨hm, st₁, hs, hst', hr⟩ := addObject_pop_inv ha
        subst hst'
        show lookupA st₁.objsInStreams j = some v
        have hnone := (hwf.1 i hm).2.2
        have hne : j ≠ i := by
          intro hc; rw [hc] at h; rw [h] at hnone; cases hnone
        rw [storeAdd_streams_other hs hne]
        exact h

/-- C6, identity uniqueness. Over any call sequence: distinct allocation
events (`allocate_placeholder`, or `add_object` without a manual id) return
pairwise distinct `(generation, id)` pairs, and an identity populated in
`objects` or `objs_in_streams` keeps its value forever — it is never reused
while the store is alive. -/
theorem c6_identity_uniqueness (st : WState) (hwf : st.wf) (ops : List WOp) :
    ((allocRefs st ops).map fun r => (r.gen, r.idnum)).Nodup ∧
    (∀ g i v, lookupA st.objects (g, i) = some v →
        lookupA (runOps st ops).objects (g, i) = some v) ∧
    (∀ i v, lookupA st.objsInStreams i = some v →
        lookupA (runOps st ops).objsInStreams i = some v) := by
  refine ⟨?_, ?_, ?_⟩
  · have hp := allocRefs_pairwise ops st
    show ((allocRefs st ops).map fun r => (r.gen, r.idnum)).Pairwise (· ≠ ·)
    rw [List.pairwise_map]
    refine hp.imp ?_
    intro a b h hc
    have := congrArg Prod.snd hc
    simp only at this
    omega
  · intro g i v h
    induction ops generalizing st with
    | nil => exact h
    | cons op rest ih =>
      exact ih _ (wf_runOp hwf op) (objects_stable_runOp hwf h op)
  · intro i v h
    induction ops generalizing st with
    | nil => exact h
    | cons op rest ih =>
      exact ih _ (wf_runOp hwf op) (streams_stable_runOp hwf h op)

/-- A fresh, empty writer state. -/
def stW0 : WState := ⟨[], [], [], 0, []⟩

/-- A writer state holding one populated object. -/
def stW1 : WState := ⟨[((0, 1), .num 7)], [], [], 1, []⟩

theorem stW0_wf : stW0.wf := by
  simp [WState.wf, stW0]

theorem stW1_wf : stW1.wf := by
  simp [WState.wf, stW1]

/-- Witness for C1: concrete run on a fresh writer, with one interleaved
unrelated allocation before and after population. -/
theorem c1_placeholder_safety_witness :
    getObject (runOps (allocatePlaceholder stW0).1 [.alloc])
        (allocatePlaceholder stW0).2 = .ok .null ∧
    getObject (runOps (⟨[((0, 1), .num 7)], [], [], 2, [2]⟩ : WState) [.alloc])
        (allocatePlaceholder stW0).2 = .ok (.num 7) := by
  have h := c1_placeholder_safety stW0 stW0_wf [.alloc]
    (by intro op hop; simp at hop; subst hop; rfl)
    (.num 7) none ⟨[((0, 1), .num 7)], [], [], 2, [2]⟩ ⟨selfTok, 1, 0⟩
  exact ⟨h.1, h.2 rfl [.alloc]⟩

/-- Witness for C6: a populated identity survives a further allocation, and
allocation events stay distinct. -/
theorem c6_identity_uniqueness_witness :
    ((allocRefs stW1 [.alloc, .add (.num 3) none none]).map
        fun r => (r.gen, r.idnum)).Nodup ∧
    lookupA (runOps stW1 [.alloc, .add (.num 3) none none]).objects (0, 1) =
      some (.num 7) := by
  have h := c6_identity_uniqueness stW1 stW1_wf [.alloc, .add (.num 3) none none]
  exact ⟨h.1, h.2.1 0 1 (.num 7) rfl⟩

/-! ### Cross-reference encoders (`_contiguous_xref_chunks`, `_write_xref_table`,
`XRefStream.write_to_stream`) -/

/-- Physical position of an object: a byte offset, or a
`(container_object_id, index_within_container)` pair for an object inside an
object stream (the `tuple` case in the source). -/
inductive XPos where
  | offset (pos : Nat)
  | inStream (objStreamNum : Nat) (ix : Nat)
deriving DecidableEq, Repr

/-- `sorted(position_dict.keys(), key=lambda t: t[1])`: sort the entries by
object id (a stable sort, like Python's). -/
def sortedEntries (pd : List ((Nat × Nat) × XPos)) : List ((Nat × Nat) × XPos) :=
  pd.insertionSort (fun a b => a.1.2 ≤ b.1.2)

instance : IsTotal ((Nat × Nat) × XPos) (fun a b => a.1.2 ≤ b.1.2) :=
  ⟨fun _ _ => Nat.le_total _ _⟩

instance : IsTrans ((Nat × Nat) × XPos) (fun a b => a.1.2 ≤ b.1.2) :=
  ⟨fun _ _ _ => Nat.le_trans⟩

/-- Object id of a position-map entry. -/
def idOf (e : (Nat × Nat) × XPos) : Nat := e.1.2

/-- The `(position, generation)` pair recorded for an entry in its chunk. -/
def entryOf (e : (Nat × Nat) × XPos) : XPos × Nat := (e.2, e.1.1)

/-- Loop of `_contiguous_xref_chunks`: walk the id-sorted entries carrying
`first_idnum`, `previous_idnum` and `current_chunk`; yield the current chunk
and start a new one exactly when the id is not `previous_idnum + 1`. -/
def chunksGo : List ((Nat × Nat) × XPos) → Nat → Nat → List (XPos × Nat) →
    List (Nat × List (XPos × Nat))
  | [], firstId, _prev, chunk => [(firstId, chunk)]
  | ((g, i), pos) :: rest, firstId, prev, chunk =>
    if chunk ≠ [] ∧ i ≠ prev + 1 then
      (firstId, chunk) :: chunksGo rest i i [(pos, g)]
    else
      chunksGo rest firstId i (chunk ++ [(pos, g)])

/-- `_contiguous_xref_chunks`: divide the position map into contiguous runs.
`none` models the `StopIteration` from peeking an empty map. -/
def contiguousXrefChunks (pd : List ((Nat × Nat) × XPos)) :
    Option (List (Nat × List (XPos × Nat))) :=
  match sortedEntries pd with
  | [] => none
  | ((g, i), pos) :: rest => some (chunksGo rest i i [(pos, g)])

/-- One line of the legacy plain-text index, abstracting the formatted byte
strings of `_write_xref_table`: a subsection header `first length`, an in-use
entry line, or the synthetic free entry `0000000000 65535 f`. -/
inductive XrefLine where
  | header (firstId length : Nat)
  | entry (pos : XPos) (gen : Nat)
  | free0
deriving DecidableEq, Repr

/-- `write_subsection`: one entry line per chunk member. -/
def entryLines (chunk : List (XPos × Nat)) : List XrefLine :=
  chunk.map fun e => .entry e.1 e.2

/-- `_write_xref_table`, as the sequence of emitted lines: if the first run
starts at id 1 the synthetic free entry for id 0 is merged into it (declared
length = run length + 1), otherwise it is emitted as its own subsection
`0 1`; the remaining runs follow with their own headers. -/
def writeXrefTable (pd : List ((Nat × Nat) × XPos)) : Option (List XrefLine) :=
  match contiguousXrefChunks pd with
  | none => none
  | some [] => none
  | some ((firstId, chunk) :: rest) =>
    some ((if firstId = 1 then
        [XrefLine.header 0 (chunk.length + 1), .free0]
      else
        [XrefLine.header 0 1, .free0, .header firstId chunk.length])
      ++ entryLines chunk
      ++ rest.flatMap fun fc => XrefLine.header fc.1 fc.2.length :: entryLines fc.2)

/-- The ids covered by a run decomposition, in order. -/
def runIds (cs : List (Nat × List (XPos × Nat))) : List Nat :=
  cs.flatMap fun fc => List.range' fc.1 fc.2.length

/-- Full characterization of the chunking loop on strictly ascending ids:
the first run keeps the carried `first_idnum`; the runs cover exactly the
input ids in order; the entries are preserved in order; every run is
non-empty; and consecutive runs are separated by a gap (maximality). -/
theorem chunksGo_spec (l : List ((Nat × Nat) × XPos)) :
    ∀ (firstId prev : Nat) (chunk : List (XPos × Nat)),
      chunk ≠ [] →
      prev + 1 = firstId + chunk.length →
      List.Chain' (· < ·) (prev :: l.map idOf) →
      (∃ c₀ cs', chunksGo l firstId prev chunk = (firstId, c₀) :: cs') ∧
      runIds (chunksGo l firstId prev chunk) =
        List.range' firstId chunk.length ++ l.map idOf ∧
      (chunksGo l firstId prev chunk).flatMap (fun fc => fc.2) =
        chunk ++ l.map entryOf ∧
      (∀ fc ∈ chunksGo l firstId prev chunk, fc.2 ≠ []) ∧
      List.Chain' (fun a b => a.1 + a.2.length < b.1)
        (chunksGo l firstId prev chunk) := by
  induction l with
  | nil =>
    intro firstId prev chunk hck _hprev _hchain
    refine ⟨⟨chunk, [], rfl⟩, ?_, ?_, ?_, ?_⟩
    · simp [chunksGo, runIds]
    · simp [chunksGo]
    · intro fc hfc
      simp only [chunksGo, List.mem_singleton] at hfc
      subst hfc
      exact hck
    · simp [chunksGo]
  | cons e rest ih =>
    obtain ⟨⟨g, i⟩, pos⟩ := e
    intro firstId prev chunk hck hprev hchain
    have hchain' := hchain
    rw [List.map_cons, List.chain'_cons] at hchain'
    obtain ⟨hlt, hchain₂⟩ := hchain'
    simp only [idOf] at hlt
    by_cases hgap : i = prev + 1
    · have hcond : ¬(chunk ≠ [] ∧ i ≠ prev + 1) := by simp [hgap]
      rw [show chunksGo (((g, i), pos) :: rest) firstId prev chunk =
          chunksGo rest firstId i (chunk ++ [(pos, g)]) by
        simp only [chunksGo, if_neg hcond]]
      have hck' : chunk ++ [(pos, g)] ≠ [] := by simp
      have hprev' : i + 1 = firstId + (chunk ++ [(pos, g)]).length := by
        simp [hgap]
        omega
      obtain ⟨hP1, hP2, hP3, hP4, hP5⟩ :=
        ih firstId i (chunk ++ [(pos, g)]) hck' hprev' hchain₂
      refine ⟨hP1, ?_, ?_, hP4, hP5⟩
      · rw [hP2]
        have hrc : List.range' firstId (chunk.length + 1) =
            List.range' firstId chunk.length ++ [firstId + chunk.length] := by
          simpa using @List.range'_concat 1 firstId chunk.length
        simp only [List.length_append, List.length_cons, List.length_nil, hrc]
        rw [List.append_assoc]
        congr 1
        simp only [List.map_cons, idOf]
        have : firstId + chunk.length = i := by omega
        rw [this]
        rfl
      · rw [hP3, List.append_assoc]
        congr 1
    · have hcond : chunk ≠ [] ∧ i ≠ prev + 1 := ⟨hck, hgap⟩
      rw [show chunksGo (((g, i), pos) :: rest) firstId prev chunk =
          (firstId, chunk) :: chunksGo rest i i [(pos, g)] by
        simp only [chunksGo, if_pos hcond]]
      obtain ⟨hP1, hP2, hP3, hP4, hP5⟩ :=
        ih i i [(pos, g)] (by simp) (by simp) hchain₂
      obtain ⟨c₀, cs', hP1eq⟩ := hP1
      refine ⟨⟨chunk, _, rfl⟩, ?_, ?_, ?_, ?_⟩
      · simp only [runIds, List.flatMap_cons]
        rw [show (chunksGo rest i i [(pos, g)]).flatMap
              (fun fc => List.range' fc.1 fc.2.length) =
            runIds (chunksGo rest i i [(pos, g)]) from rfl, hP2]
        simp [List.map_cons, idOf, List.range']
      · simp only [List.flatMap_cons]
        rw [hP3]
        simp [entryOf]
      · intro fc hfc
        rcases List.mem_cons.mp hfc with hfc | hfc
        · subst hfc; exact hck
        · exact hP4 fc hfc
      · rw [hP1eq]
        refine List.chain'_cons.mpr ⟨?_, hP1eq ▸ hP5⟩
        simp only
        omega

theorem sortedEntries_perm (pd : List ((Nat × Nat) × XPos)) :
    (sortedEntries pd).Perm pd := List.perm_insertionSort _ _

theorem sortedEntries_sorted (pd : List ((Nat × Nat) × XPos)) :
    (sortedEntries pd).Pairwise (fun a b => a.1.2 ≤ b.1.2) :=
  List.sorted_insertionSort _ _

/-- Main characterization of `_contiguous_xref_chunks` on a non-empty
position map with distinct ids: the runs cover exactly the sorted ids, keep
the entries in order, are non-empty, and are separated by gaps. -/
theorem chunks_main (pd : List ((Nat × Nat) × XPos)) (hne : pd ≠ [])
    (hnodup : (pd.map idOf).Nodup) :
    ∃ f c₀ cs',
      contiguousXrefChunks pd = some ((f, c₀) :: cs') ∧
      runIds ((f, c₀) :: cs') = (sortedEntries pd).map idOf ∧
      ((f, c₀) :: cs').flatMap (fun fc => fc.2) = (sortedEntries pd).map entryOf ∧
      (∀ fc ∈ (f, c₀) :: cs', fc.2 ≠ []) ∧
      List.Chain' (fun a b => a.1 + a.2.length < b.1) ((f, c₀) :: cs') ∧
      List.Chain' (· < ·) ((sortedEntries pd).map idOf) := by
  have hpw_le : ((sortedEntries pd).map idOf).Pairwise (· ≤ ·) :=
    List.pairwise_map.mpr (sortedEntries_sorted pd)
  have hnd : ((sortedEntries pd).map idOf).Nodup :=
    (((sortedEntries_perm pd).map idOf).symm).nodup hnodup
  have hpw_lt : ((sortedEntries pd).map idOf).Pairwise (· < ·) :=
    (List.Pairwise.and hpw_le hnd).imp fun h => lt_of_le_of_ne h.1 h.2
  have hchainS : List.Chain' (· < ·) ((sortedEntries pd).map idOf) :=
    List.Pairwise.chain' hpw_lt
  rcases hsort : sortedEntries pd with _ | ⟨⟨⟨g, i⟩, pos⟩, rest⟩
  · exfalso
    have hp := sortedEntries_perm pd
    rw [hsort] at hp
    exact hne hp.symm.eq_nil
  · have hchain2 : List.Chain' (· < ·) (i :: rest.map idOf) := by
      have := hchainS
      rw [hsort] at this
      simpa [idOf] using this
    obtain ⟨⟨c₀, cs', hP1⟩, hP2, hP3, hP4, hP5⟩ :=
      chunksGo_spec rest i i [(pos, g)] (by simp) (by simp) hchain2
    have hCC : contiguousXrefChunks pd = some ((i, c₀) :: cs') := by
      simp [contiguousXrefChunks, hsort, hP1]
    refine ⟨i, c₀, cs', hCC, ?_, ?_, ?_, ?_, hsort ▸ hchainS⟩
    · rw [← hP1, hP2]
      simp [idOf, List.range'_one]
    · rw [← hP1, hP3]
      simp [entryOf]
    · rw [← hP1]
      exact hP4
    · rw [← hP1]
      exact hP5

/-- The example position map with ids `{1, 2, 3, 7, 8, 10}`. -/
def pdEx : List ((Nat × Nat) × XPos) :=
  [((0, 1), .offset 17), ((0, 2), .offset 25), ((0, 3), .offset 33),
   ((0, 7), .offset 48), ((0, 8), .offset 59), ((0, 10), .offset 70)]

/-- C3, legacy index run-chunking. For every non-empty position map with
distinct ids the chunker produces non-empty runs whose ids, concatenated,
are exactly the entry ids in ascending order, with a gap between adjacent
runs (so each run is maximal and a new run starts exactly when an id is not
one greater than its predecessor); the table emitter merges the synthetic
free entry for id 0 into the first subsection (declared length = run length
+ 1) when the lowest id is 1 and otherwise emits it as its own subsection
`0 1`; on ids `{1,2,3,7,8,10}` the chunker yields exactly the runs
`(1,3) (7,2) (10,1)`. -/
theorem c3_legacy_xref_runs (pd : List ((Nat × Nat) × XPos)) (hne : pd ≠ [])
    (hnodup : (pd.map idOf).Nodup) :
    (∃ f c₀ cs',
      contiguousXrefChunks pd = some ((f, c₀) :: cs') ∧
      runIds ((f, c₀) :: cs') = (sortedEntries pd).map idOf ∧
      ((f, c₀) :: cs').flatMap (fun fc => fc.2) = (sortedEntries pd).map entryOf ∧
      (∀ fc ∈ (f, c₀) :: cs', fc.2 ≠ []) ∧
      List.Chain' (fun a b => a.1 + a.2.length < b.1) ((f, c₀) :: cs') ∧
      List.Chain' (· < ·) ((sortedEntries pd).map idOf) ∧
      writeXrefTable pd =
        some ((if f = 1 then
            [XrefLine.header 0 (c₀.length + 1), XrefLine.free0]
          else
            [XrefLine.header 0 1, XrefLine.free0, XrefLine.header f c₀.length])
          ++ entryLines c₀
          ++ cs'.flatMap fun fc =>
              XrefLine.header fc.1 fc.2.length :: entryLines fc.2)) ∧
    (contiguousXrefChunks pdEx).map
        (fun cs => cs.map fun fc => (fc.1, fc.2.length)) =
      some [(1, 3), (7, 2), (10, 1)] ∧
    writeXrefTable pdEx = some [XrefLine.header 0 4, .free0,
      .entry (.offset 17) 0, .entry (.offset 25) 0, .entry (.offset 33) 0,
      .header 7 2, .entry (.offset 48) 0, .entry (.offset 59) 0,
      .header 10 1, .entry (.offset 70) 0] := by
  refine ⟨?_, by decide, by decide⟩
  obtain ⟨f, c₀, cs', hCC, hRuns, hEnt, hNe, hGap, hChain⟩ :=
    chunks_main pd hne hnodup
  refine ⟨f, c₀, cs', hCC, hRuns, hEnt, hNe, hGap, hChain, ?_⟩
  simp [writeXrefTable, hCC]

/-- Witness for C3: the example map with ids `{1,2,3,7,8,10}`. -/
theorem c3_legacy_xref_runs_witness :
    pdEx ≠ [] ∧ (pdEx.map idOf).Nodup ∧
    (contiguousXrefChunks pdEx).map
        (fun cs => cs.map fun fc => (fc.1, fc.2.length)) =
      some [(1, 3), (7, 2), (10, 1)] :=
  ⟨by decide, by decide, (c3_legacy_xref_runs pdEx (by decide) (by decide)).2.1⟩

/-- Big-endian fixed-width byte encoding (`struct.pack` with `>Q` / `>H`). -/
def beBytes : Nat → Nat → List Nat
  | 0, _ => []
  | w + 1, n => beBytes w (n / 256) ++ [n % 256]

/-- Big-endian byte decoding (what a conforming reader computes). -/
def beDecode (bs : List Nat) : Nat := bs.foldl (fun a b => 256 * a + b) 0

/-- One entry of the cross-reference stream: type tag `\x02` with 8-byte
big-endian container object id and 2-byte big-endian in-container index
(after `assert generation == 0`), or type tag `\x01` with 8-byte big-endian
offset and 2-byte big-endian generation. -/
def encodeXrefEntry : XPos × Nat → Except WErr (List Nat)
  | (.inStream snum ix, gen) =>
    if gen = 0 then .ok (2 :: (beBytes 8 snum ++ beBytes 2 ix))
    else .error .assertionError
  | (.offset pos, gen) => .ok (1 :: (beBytes 8 pos ++ beBytes 2 gen))

def encodeChunkEntries : List (XPos × Nat) → Except WErr (List Nat)
  | [] => .ok []
  | e :: rest =>
    match encodeXrefEntry e with
    | .ok b =>
      match encodeChunkEntries rest with
      | .ok bs => .ok (b ++ bs)
      | .error er => .error er
    | .error er => .error er

/-- Loop of `XRefStream.write_to_stream` over the subsections: extend the
`/Index` array by `(first_idnum, length)` and append the entry bytes. -/
def xrefStreamScan :
    List (Nat × List (XPos × Nat)) → Except WErr (List Nat × List Nat)
  | [] => .ok ([], [])
  | (f, chunk) :: rest =>
    match encodeChunkEntries chunk with
    | .ok eb =>
      match xrefStreamScan rest with
      | .ok p => .ok (f :: chunk.length :: p.1, eb ++ p.2)
      | .error er => .error er
    | .error er => .error er

/-- The rendered cross-reference stream object: `/W` widths, `/Index` array
and raw stream data. -/
structure XRefStreamObj where
  widths : List Nat
  index : List Nat
  data : List Nat
deriving DecidableEq, Repr

/-- `XRefStream.write_to_stream` (with the `/W` triple from
`XRefStream.__init__`): index starts `[0, 1]`, the data starts with the
synthetic free entry for id 0 (`b"\x00" * 9` then `b"\xff\xff"`), and the
runs follow in order. -/
def renderXrefStream (pd : List ((Nat × Nat) × XPos)) :
    Except WErr XRefStreamObj :=
  match contiguousXrefChunks pd with
  | none => .error .keyError
  | some cs =>
    match xrefStreamScan cs with
    | .ok p =>
      .ok ⟨[1, 8, 2], 0 :: 1 :: p.1, (List.replicate 9 0 ++ [255, 255]) ++ p.2⟩
    | .error er => .error er

/-- Total per-entry byte encoding used to state the format. -/
def byteEnc : XPos × Nat → List Nat
  | (.offset pos, gen) => 1 :: (beBytes 8 pos ++ beBytes 2 gen)
  | (.inStream snum ix, _) => 2 :: (beBytes 8 snum ++ beBytes 2 ix)

/-- An entry passes the `assert generation == 0` check of the tag-2 branch. -/
def genOk : XPos × Nat → Bool
  | (.inStream _ _, gen) => gen == 0
  | _ => true

theorem encodeXrefEntry_ok {e : XPos × Nat} (h : genOk e = true) :
    encodeXrefEntry e = .ok (byteEnc e) := by
  obtain ⟨p, gen⟩ := e
  match p with
  | .offset pos => rfl
  | .inStream snum ix =>
    simp only [genOk, beq_iff_eq] at h
    simp [encodeXrefEntry, byteEnc, h]

theorem encodeChunkEntries_ok {chunk : List (XPos × Nat)}
    (h : ∀ e ∈ chunk, genOk e = true) :
    encodeChunkEntries chunk = .ok (chunk.flatMap byteEnc) := by
  induction chunk with
  | nil => rfl
  | cons e rest ih =>
    have he := encodeXrefEntry_ok (h e (List.mem_cons_self _ _))
    have hr := ih fun x hx => h x (List.mem_cons_of_mem _ hx)
    simp [encodeChunkEntries, he, hr]

theorem xrefStreamScan_ok {cs : List (Nat × List (XPos × Nat))}
    (h : ∀ fc ∈ cs, ∀ e ∈ fc.2, genOk e = true) :
    xrefStreamScan cs = .ok
      (cs.flatMap fun fc => [fc.1, fc.2.length],
       cs.flatMap fun fc => fc.2.flatMap byteEnc) := by
  induction cs with
  | nil => rfl
  | cons fc rest ih =>
    obtain ⟨f, chunk⟩ := fc
    have he := encodeChunkEntries_ok (h (f, chunk) (List.mem_cons_self _ _))
    have hr := ih fun x hx => h x (List.mem_cons_of_mem _ hx)
    simp [xrefStreamScan, he, hr]

/-- A second example map, exercising an in-container (tag 2) entry. -/
def pdEx2 : List ((Nat × Nat) × XPos) :=
  [((0, 1), .offset 17), ((0, 2), .inStream 5 0)]

theorem beDecode_beBytes (w n : Nat) : beDecode (beBytes w n) = n % 256 ^ w := by
  induction w generalizing n with
  | zero => simp [beBytes, beDecode, Nat.mod_one]
  | succ w ih =>
    have hfold : beDecode (beBytes w (n / 256) ++ [n % 256]) =
        256 * beDecode (beBytes w (n / 256)) + n % 256 := by
      simp [beDecode, List.foldl_append]
    rw [beBytes, hfold, ih]
    rw [pow_succ']
    rw [Nat.mod_mul]
    omega

/-- C4, compact cross-reference stream format. For every position map
(non-empty, distinct ids, in-container entries at generation 0): the stream's
dictionary records widths `(1, 8, 2)`; its `/Index` array is `[0, 1]`
followed by each run's `(first_id, length)`; its byte content is the
synthetic free entry for id 0 with generation 65535 followed, per entry in id
order within each contiguous run, by tag 1 with 8-byte big-endian offset and
2-byte generation for direct objects, and tag 2 with 8-byte big-endian
container id and 2-byte big-endian index for in-container objects. The
synthetic lead entry decodes as `(0, 0, 65535)` and a `w`-byte big-endian
field decodes to its value mod `256^w`. -/
theorem c4_xref_stream_format (pd : List ((Nat × Nat) × XPos)) (hne : pd ≠ [])
    (hnodup : (pd.map idOf).Nodup)
    (hgen : ∀ e ∈ pd, genOk (entryOf e) = true) :
    (∃ cs, contiguousXrefChunks pd = some cs ∧
      renderXrefStream pd = .ok ⟨[1, 8, 2],
        0 :: 1 :: cs.flatMap (fun fc => [fc.1, fc.2.length]),
        (List.replicate 9 0 ++ [255, 255]) ++
          cs.flatMap fun fc => fc.2.flatMap byteEnc⟩ ∧
      runIds cs = (sortedEntries pd).map idOf ∧
      cs.flatMap (fun fc => fc.2) = (sortedEntries pd).map entryOf ∧
      List.Chain' (· < ·) ((sortedEntries pd).map idOf)) ∧
    List.replicate 9 0 ++ [255, 255] = 0 :: (beBytes 8 0 ++ beBytes 2 65535) ∧
    (∀ w n, beDecode (beBytes w n) = n % 256 ^ w) := by
  refine ⟨?_, by decide, beDecode_beBytes⟩
  obtain ⟨f, c₀, cs', hCC, hRuns, hEnt, _hNe, _hGap, hChain⟩ :=
    chunks_main pd hne hnodup
  have hgenc : ∀ fc ∈ (f, c₀) :: cs', ∀ e ∈ fc.2, genOk e = true := by
    intro fc hfc e he
    have hmem : e ∈ ((f, c₀) :: cs').flatMap (fun fc => fc.2) :=
      List.mem_flatMap.mpr ⟨fc, hfc, he⟩
    rw [hEnt] at hmem
    obtain ⟨orig, horig, heq⟩ := List.mem_map.mp hmem
    subst heq
    exact hgen orig ((sortedEntries_perm pd).subset horig)
  have hscan := xrefStreamScan_ok hgenc
  exact ⟨(f, c₀) :: cs', hCC, by simp [renderXrefStream, hCC, hscan], hRuns,
    hEnt, hChain⟩

/-! ### Write pipeline (`_write_objects`, `_write`) -/

/-- `add_object(obj)` with neither a manual id nor an object stream never
fails; this is its direct effect. -/
def addObjectDirect (st : WState) (obj : PdfObj) : WState × Ref :=
  ({ st with objects := upsertA st.objects (0, st.lastobjId + 1) obj,
             lastobjId := st.lastobjId + 1 },
   ⟨selfTok, st.lastobjId + 1, 0⟩)

theorem addObjectDirect_eq (st : WState) (obj : PdfObj) :
    addObject st obj none none = .ok (addObjectDirect st obj) := rfl

/-- `ObjectStream.as_pdf_object`, shallowly: the dictionary fields set by the
source; the member byte payload comes from the external value model's
`write_to_stream` and is abstracted away. -/
def ObjectStream.asPdfObject (s : ObjectStream) : PdfObj :=
  .stream [("/Type", .name "/ObjStm"), ("/N", .num s.objRefs.length)] []

/-- First loop of `_write_objects`: register each object stream's rendered
stream object (gaining a fresh id) and record, for every member, its
synthetic `(container_object_id, index)` position. -/
def flushObjStreams : WState → List ObjectStream →
    List ((Nat × Nat) × XPos) → WState × List ((Nat × Nat) × XPos)
  | st, [], posd => (st, posd)
  | st, s :: rest, posd =>
    let p := addObjectDirect st s.asPdfObject
    let posd' := s.objRefs.enum.foldl
        (fun acc q => upsertA acc (0, q.2.1) (XPos.inStream p.2.idnum q.1)) posd
    flushObjStreams p.1 rest posd'

/-- `sorted(self.objects.keys())`: ascending lexicographic key order. -/
def sortedObjEntries (objs : List ((Nat × Nat) × PdfObj)) :
    List ((Nat × Nat) × PdfObj) :=
  objs.insertionSort
    (fun a b => a.1.1 < b.1.1 ∨ (a.1.1 = b.1.1 ∧ a.1.2 ≤ b.1.2))

/-- Second loop of `_write_objects`: write the direct objects in ascending
key order, recording each object's byte offset before its body; `lenF` is
the abstracted serialized length of one `obj ... endobj` record. -/
def writeLoop (lenF : PdfObj → Nat) : List ((Nat × Nat) × PdfObj) → Nat →
    List ((Nat × Nat) × XPos) → Nat × List ((Nat × Nat) × XPos)
  | [], pos, posd => (pos, posd)
  | (k, obj) :: rest, pos, posd =>
    writeLoop lenF rest (pos + lenF obj) (upsertA posd k (.offset pos))

/-- Outcome of one `_write` pass: final writer state, position map, the
trailer's `/Size` value, the id reserved for the cross-reference stream
(compact mode only) and the `startxref` location. -/
structure WriteResult where
  finalState : WState
  positions : List ((Nat × Nat) × XPos)
  size : Nat
  xrefsId : Option Nat
  xrefLocation : Nat

/-- `BasePdfFileWriter._write`: flush object streams, write direct objects,
then in compact mode reserve `xrefs_id = _lastobj_id + 1` for the
cross-reference stream, record its own position in the position map and set
`/Size = xrefs_id + 1`; in legacy mode set `/Size = _lastobj_id + 1`. -/
def writePass (st : WState) (lenF : PdfObj → Nat) (streamXrefs : Bool)
    (pos0 : Nat) : WriteResult :=
  let p₁ := flushObjStreams st st.objectStreams []
  let p₂ := writeLoop lenF (sortedObjEntries p₁.1.objects) pos0 p₁.2
  if streamXrefs then
    let xrefsId := p₁.1.lastobjId + 1
    ⟨p₁.1, upsertA p₂.2 (0, xrefsId) (XPos.offset p₂.1), xrefsId + 1,
      some xrefsId, p₂.1⟩
  else
    ⟨p₁.1, p₂.2, p₁.1.lastobjId + 1, none, p₂.1⟩

/-- All ids appearing in the registered object streams are within the
allocation cursor. -/
def WState.streamsBounded (st : WState) : Prop :=
  ∀ s ∈ st.objectStreams, ∀ kv ∈ s.objRefs, kv.1 ≤ st.lastobjId

theorem mem_foldl_upsertA {α β γ : Type} [DecidableEq α]
    (key : γ → α) (val : γ → β) :
    ∀ (l : List γ) (acc : List (α × β)) (kv : α × β),
      kv ∈ l.foldl (fun a q => upsertA a (key q) (val q)) acc →
      kv ∈ acc ∨ ∃ q ∈ l, kv.1 = key q := by
  intro l
  induction l with
  | nil => intro acc kv h; exact Or.inl h
  | cons q rest ih =>
    intro acc kv h
    rcases ih _ kv h with h1 | ⟨q', hq', hk⟩
    · rcases mem_upsertA h1 with h2 | h2
      · exact Or.inl h2
      · exact Or.inr ⟨q, List.mem_cons_self _ _, by rw [h2]⟩
    · exact Or.inr ⟨q', List.mem_cons_of_mem _ hq', hk⟩

theorem writeLoop_mem (lenF : PdfObj → Nat) :
    ∀ (objs : List ((Nat × Nat) × PdfObj)) (pos : Nat)
      (posd : List ((Nat × Nat) × XPos)) (kv : (Nat × Nat) × XPos),
      kv ∈ (writeLoop lenF objs pos posd).2 →
      kv ∈ posd ∨ ∃ q ∈ objs, kv.1 = q.1 := by
  intro objs
  induction objs with
  | nil => intro pos posd kv h; exact Or.inl h
  | cons q rest ih =>
    obtain ⟨k, obj⟩ := q
    intro pos posd kv h
    rcases ih _ _ kv h with h1 | ⟨q', hq', hk⟩
    · rcases mem_upsertA h1 with h2 | h2
      · exact Or.inl h2
      · exact Or.inr ⟨(k, obj), List.mem_cons_self _ _, by rw [h2]⟩
    · exact Or.inr ⟨q', List.mem_cons_of_mem _ hq', hk⟩

theorem flushObjStreams_spec (streams : List ObjectStream) :
    ∀ (st : WState) (posd : List ((Nat × Nat) × XPos)) (B : Nat),
      (∀ s ∈ streams, ∀ kv ∈ s.objRefs, kv.1 ≤ B) →
      (∀ kv ∈ posd, kv.1.2 ≤ B) →
      (∀ kv ∈ st.objects, kv.1.2 ≤ st.lastobjId) →
      B ≤ st.lastobjId →
      st.lastobjId ≤ (flushObjStreams st streams posd).1.lastobjId ∧
      (∀ kv ∈ (flushObjStreams st streams posd).2, kv.1.2 ≤ B) ∧
      (∀ kv ∈ (flushObjStreams st streams posd).1.objects,
          kv.1.2 ≤ (flushObjStreams st streams posd).1.lastobjId) := by
  induction streams with
  | nil =>
    intro st posd B _ hposd hobj _
    exact ⟨le_refl _, hposd, hobj⟩
  | cons s rest ih =>
    intro st posd B hstr hposd hobj hB
    have hobj' : ∀ kv ∈ (addObjectDirect st s.asPdfObject).1.objects,
        kv.1.2 ≤ (addObjectDirect st s.asPdfObject).1.lastobjId := by
      intro kv hkv
      rcases mem_upsertA hkv with h1 | h1
      · have := hobj kv h1
        simp [addObjectDirect]
        omega
      · rw [h1]
        simp [addObjectDirect]
    have hposd' : ∀ kv ∈ s.objRefs.enum.foldl
        (fun acc q => upsertA acc (0, q.2.1)
          (XPos.inStream (addObjectDirect st s.asPdfObject).2.idnum q.1)) posd,
        kv.1.2 ≤ B := by
      intro kv hkv
      rcases mem_foldl_upsertA _ _ _ _ _ hkv with h1 | ⟨q, hq, hk⟩
      · exact hposd kv h1
      · rw [hk]
        have hq2 : q.2 ∈ s.objRefs := by
          have := List.enum_map_snd s.objRefs
          exact this ▸ List.mem_map_of_mem Prod.snd hq
        exact hstr s (List.mem_cons_self _ _) q.2 hq2
    have := ih (addObjectDirect st s.asPdfObject).1 _ B
      (fun s' hs' => hstr s' (List.mem_cons_of_mem _ hs')) hposd' hobj'
      (by simp [addObjectDirect]; omega)
    refine ⟨?_, this.2.1, this.2.2⟩
    have h1 := this.1
    simp only [addObjectDirect] at h1
    calc st.lastobjId ≤ st.lastobjId + 1 := Nat.le_succ _
      _ ≤ _ := h1

/-- C8, trailer `/Size`. In compact mode the pass reserves
`xrefs_id = _lastobj_id + 1` for the index stream, records the stream's own
position under that id, every id in the position map is at most `xrefs_id`,
and `/Size = xrefs_id + 1`; in legacy mode `/Size = _lastobj_id + 1` with
every position-map id at most `_lastobj_id` — in both cases one more than
the highest id allocated and populated by the pass, the index stream's own
id included. -/
theorem c8_trailer_size (st : WState) (lenF : PdfObj → Nat) (pos0 : Nat)
    (hwf : st.wf) (hsb : st.streamsBounded) :
    ((writePass st lenF true pos0).size =
        (writePass st lenF true pos0).finalState.lastobjId + 2 ∧
      (writePass st lenF true pos0).xrefsId =
        some ((writePass st lenF true pos0).finalState.lastobjId + 1) ∧
      lookupA (writePass st lenF true pos0).positions
          (0, (writePass st lenF true pos0).finalState.lastobjId + 1) =
        some (.offset (writePass st lenF true pos0).xrefLocation) ∧
      (∀ kv ∈ (writePass st lenF true pos0).positions,
        kv.1.2 ≤ (writePass st lenF true pos0).finalState.lastobjId + 1)) ∧
    ((writePass st lenF false pos0).size =
        (writePass st lenF false pos0).finalState.lastobjId + 1 ∧
      (∀ kv ∈ (writePass st lenF false pos0).positions,
        kv.1.2 ≤ (writePass st lenF false pos0).finalState.lastobjId)) := by
  obtain ⟨hflush_mono, hflush_posd, hflush_obj⟩ :=
    flushObjStreams_spec st.objectStreams st [] st.lastobjId hsb
      (by simp) hwf.2.1 (le_refl _)
  have hposd₂ : ∀ kv ∈ (writeLoop lenF
      (sortedObjEntries (flushObjStreams st st.objectStreams []).1.objects)
      pos0 (flushObjStreams st st.objectStreams []).2).2,
      kv.1.2 ≤ (flushObjStreams st st.objectStreams []).1.lastobjId := by
    intro kv hkv
    rcases writeLoop_mem lenF _ _ _ kv hkv with h1 | ⟨q, hq, hk⟩
    · exact le_trans (hflush_posd kv h1) hflush_mono
    · rw [hk]
      have hq' : q ∈ (flushObjStreams st st.objectStreams []).1.objects :=
        (List.perm_insertionSort _ _).subset hq
      exact hflush_obj q hq'
  constructor
  · refine ⟨rfl, rfl, ?_, ?_⟩
    · exact lookupA_upsert_self _ _ _
    · intro kv hkv
      rcases mem_upsertA hkv with h1 | h1
      · exact le_trans (hposd₂ kv h1) (Nat.le_succ _)
      · rw [h1]
        exact le_refl _
  · exact ⟨rfl, hposd₂⟩

/-- Witness for C8: a one-object writer, both index modes. -/
theorem c8_trailer_size_witness :
    stW1.wf ∧ stW1.streamsBounded ∧
    (writePass stW1 (fun _ => 10) true 0).size =
      (writePass stW1 (fun _ => 10) true 0).finalState.lastobjId + 2 ∧
    (writePass stW1 (fun _ => 10) false 0).size =
      (writePass stW1 (fun _ => 10) false 0).finalState.lastobjId + 1 :=
  ⟨stW1_wf, by simp [WState.streamsBounded, stW1],
    (c8_trailer_size stW1 (fun _ => 10) 0 stW1_wf
      (by simp [WState.streamsBounded, stW1])).1.1,
    (c8_trailer_size stW1 (fun _ => 10) 0 stW1_wf
      (by simp [WState.streamsBounded, stW1])).2.1⟩

/-! ### `register_annotation` -/

/-- Update the value stored under an identity, wherever `get_object` found
it (models Python's in-place mutation of the resolved object). -/
def updateStoredObject (st : WState) (r : Ref) (v : PdfObj) :
    Except WErr WState :=
  if (lookupA st.objects (r.gen, r.idnum)).isSome then
    .ok { st with objects := upsertA st.objects (r.gen, r.idnum) v }
  else if r.gen = 0 ∧ (lookupA st.objsInStreams r.idnum).isSome then
    .ok { st with objsInStreams := upsertA st.objsInStreams r.idnum v }
  else .error .keyError

/-- `BasePdfFileWriter.register_annotation`, with Python's in-place mutation
of the resolved annotation array (or page dictionary) made explicit as a
store update at the mutated object's identity. Returns the new store and the
references passed to `mark_update`, in call order. If `/Annots` is an
indirect reference the source calls `self.mark_update(annot_ref)` — the
annotation reference — and appends to the referenced array; if `/Annots` is
a direct array, or absent (then freshly created), the page is marked. -/
def registerAnnotation (st : WState) (pageRef annotRef : Ref) :
    Except WErr (WState × List Ref) :=
  match getObject st pageRef with
  | .error e => .error e
  | .ok (.dict pentries) =>
    match lookupA pentries "/Annots" with
    | some (.ref ar) =>
      match getObject st ar with
      | .ok (.array elems) =>
        match updateStoredObject st ar (.array (elems ++ [.ref annotRef])) with
        | .ok st' => .ok (st', [annotRef])
        | .error e => .error e
      | .ok _ => .error .typeError
      | .error e => .error e
    | some (.array elems) =>
      match updateStoredObject st pageRef
          (.dict (upsertA pentries "/Annots"
            (.array (elems ++ [.ref annotRef])))) with
      | .ok st' => .ok (st', [pageRef])
      | .error e => .error e
    | some _ => .error .typeError
    | none =>
      match updateStoredObject st pageRef
          (.dict (upsertA pentries "/Annots" (.array [.ref annotRef]))) with
      | .ok st' => .ok (st', [pageRef])
      | .error e => .error e
  | .ok _ => .error .typeError

/-- Reference to the page object in the `register_annotation` examples. -/
def pgRef : Ref := ⟨selfTok, 1, 0⟩

/-- Reference to the indirect annotation list in the examples. -/
def alRef : Ref := ⟨selfTok, 2, 0⟩

/-- Reference to the annotation being registered in the examples. -/
def anRef : Ref := ⟨selfTok, 3, 0⟩

/-- A page whose `/Annots` list is stored as an indirect object. -/
def stPgI : WState :=
  ⟨[((0, 1), .dict [("/Annots", .ref alRef)]), ((0, 2), .array [])],
   [], [], 3, []⟩

/-- A page whose `/Annots` list is a direct array. -/
def stPgD : WState :=
  ⟨[((0, 1), .dict [("/Annots", .array [])])], [], [], 3, []⟩

/-- A page with no `/Annots` entry. -/
def stPgA : WState :=
  ⟨[((0, 1), .dict [])], [], [], 3, []⟩

/-- C9 evaluated on the three branches. When the annotation list is an
indirect object, the annotation is appended to the list, the page object is
left untouched, and the single `mark_update` call receives `annot_ref` (the
annotation being added) — not the list's container reference `alRef` as the
claim states; when the list is direct or absent, the page is marked. -/
theorem c9_register_annotation_eval :
    (∃ st', registerAnnotation stPgI pgRef anRef = .ok (st', [anRef]) ∧
      lookupA st'.objects (0, 2) = some (.array [.ref anRef]) ∧
      lookupA st'.objects (0, 1) = some (.dict [("/Annots", .ref alRef)])) ∧
    anRef ≠ alRef ∧
    (∃ st', registerAnnotation stPgD pgRef anRef = .ok (st', [pgRef]) ∧
      lookupA st'.objects (0, 1) =
        some (.dict [("/Annots", .array [.ref anRef])])) ∧
    (∃ st', registerAnnotation stPgA pgRef anRef = .ok (st', [pgRef]) ∧
      lookupA st'.objects (0, 1) =
        some (.dict [("/Annots", .array [.ref anRef])])) :=
  ⟨⟨_, rfl, rfl, rfl⟩, by decide, ⟨_, rfl, rfl⟩, ⟨_, rfl, rfl⟩⟩

/-! ### Import engine (`import_object` / `_import_object`) -/

/-- Values of foreign references (the foreign handler's `get_object`). -/
abbrev FMap := List (Ref × PdfObj)

/-- `obj.get_object()`: resolve a reference through its owning document —
this writer for `selfTok`, the foreign handler's map otherwise. -/
def resolveRef (st : WState) (fr : FMap) (r : Ref) : Except WErr PdfObj :=
  if r.pdf = selfTok then getObject st r
  else
    match lookupA fr r with
    | some v => .ok v
    | none => .error .keyError

/-- Import failure: a propagated writer error, or fuel exhaustion of the
shallow embedding (the source recursion has no such case; the theorems show
sufficient fuel is never exhausted). -/
inductive ImpErr where
  | fuel
  | wr (e : WErr)
deriving DecidableEq, Repr

mutual

/-- `BasePdfFileWriter._import_object`: unwrap decrypted proxies; return the
remapped reference for an already-seen foreign reference; for an unseen
reference resolve it, allocate a placeholder *before* recursing, record it in
the remap table, import the resolved value, drop the object stream if
the imported value is forbidden there, and populate the placeholder; rebuild
dictionaries, streams (keeping the encoded payload verbatim) and arrays
member by member; return anything else unchanged. -/
def importObj (fr : FMap) (fuel : Nat) (obj : PdfObj) (st : WState)
    (rm : List (Ref × Ref)) (objStream : Option Nat) :
    Except ImpErr (PdfObj × WState × List (Ref × Ref)) :=
  match fuel with
  | 0 => .error .fuel
  | fuel + 1 =>
    match obj with
    | .proxy dec => importObj fr fuel dec st rm objStream
    | .ref r =>
      match lookupA rm r with
      | some newRef => .ok (.ref newRef, st, rm)
      | none =>
        match resolveRef st fr r with
        | .error e => .error (.wr e)
        | .ok refd =>
          let p := allocatePlaceholder st
          match importObj fr fuel refd p.1 (upsertA rm r p.2) objStream with
          | .error e => .error e
          | .ok (imported, st₂, rm₂) =>
            let objStream' :=
              if imported.objstreamForbidden then none else objStream
            match addObject st₂ imported objStream' (some p.2.idnum) with
            | .error e => .error (.wr e)
            | .ok (st₃, _) => .ok (.ref p.2, st₃, rm₂)
    | .dict entries =>
      match importEntries fr fuel entries st rm objStream with
      | .error e => .error e
      | .ok (entries', st', rm') => .ok (.dict entries', st', rm')
    | .stream entries data =>
      match importEntries fr fuel entries st rm objStream with
      | .error e => .error e
      | .ok (entries', st', rm') => .ok (.stream entries' data, st', rm')
    | .array elems =>
      match importList fr fuel elems st rm objStream with
      | .error e => .error e
      | .ok (elems', st', rm') => .ok (.array elems', st', rm')
    | other => .ok (other, st, rm)
termination_by (fuel, sizeOf obj)

/-- Member-by-member import of dictionary entries. -/
def importEntries (fr : FMap) (fuel : Nat) (entries : List (String × PdfObj))
    (st : WState) (rm : List (Ref × Ref)) (objStream : Option Nat) :
    Except ImpErr (List (String × PdfObj) × WState × List (Ref × Ref)) :=
  match entries with
  | [] => .ok ([], st, rm)
  | (k, v) :: rest =>
    match importObj fr fuel v st rm objStream with
    | .error e => .error e
    | .ok (v', st', rm') =>
      match importEntries fr fuel rest st' rm' objStream with
      | .error e => .error e
      | .ok (rest', st'', rm'') => .ok ((k, v') :: rest', st'', rm'')
termination_by (fuel, sizeOf entries)

/-- Member-by-member import of array elements. -/
def importList (fr : FMap) (fuel : Nat) (elems : List PdfObj) (st : WState)
    (rm : List (Ref × Ref)) (objStream : Option Nat) :
    Except ImpErr (List PdfObj × WState × List (Ref × Ref)) :=
  match elems with
  | [] => .ok ([], st, rm)
  | v :: rest =>
    match importObj fr fuel v st rm objStream with
    | .error e => .error e
    | .ok (v', st', rm') =>
      match importList fr fuel rest st' rm' objStream with
      | .error e => .error e
      | .ok (rest', st'', rm'') => .ok (v' :: rest', st'', rm'')
termination_by (fuel, sizeOf elems)

end

/-- `BasePdfFileWriter.import_object`: start with an empty remap table. -/
def importObject (fr : FMap) (fuel : Nat) (obj : PdfObj) (st : WState)
    (objStream : Option Nat) :
    Except ImpErr (PdfObj × WState × List (Ref × Ref)) :=
  importObj fr fuel obj st [] objStream

theorem getObject_congr {st st' : WState} (r : Ref)
    (h1 : lookupA st'.objects (r.gen, r.idnum) =
      lookupA st.objects (r.gen, r.idnum))
    (h2 : (r.idnum ∈ st'.allocatedPlaceholders) =
      (r.idnum ∈ st.allocatedPlaceholders))
    (h3 : lookupA st'.objsInStreams r.idnum =
      lookupA st.objsInStreams r.idnum) :
    getObject st' r = getObject st r := by
  unfold getObject
  rw [h1, h3]
  simp only [h2]

theorem getObject_allocate {st : WState} (r : Ref)
    (h : r.idnum ≤ st.lastobjId) :
    getObject (allocatePlaceholder st).1 r = getObject st r := by
  refine getObject_congr r rfl ?_ rfl
  simp only [allocatePlaceholder, List.mem_cons, eq_iff_iff]
  constructor
  · intro hc
    rcases hc with hc | hc
    · omega
    · exact hc
  · exact Or.inr

theorem pending_allocate_le {st : WState} {i : Nat}
    (hp : pendingAt st i) : pendingAt (allocatePlaceholder st).1 i :=
  ⟨List.mem_cons_of_mem _ hp.1, Nat.le_succ_of_le hp.2.1, hp.2.2.1, hp.2.2.2⟩

theorem addObject_pop_lastobj {st : WState} {obj os i st' r'}
    (h : addObject st obj os (some i) = .ok (st', r')) :
    st'.lastobjId = st.lastobjId := by
  obtain ⟨hm, st₁, hs, hst', hr⟩ := addObject_pop_inv h
  subst hst'
  show st₁.lastobjId = st.lastobjId
  exact storeAdd_lastobj hs

theorem getObject_pop_ne {st : WState} {obj os i st' r'}
    (h : addObject st obj os (some i) = .ok (st', r')) (r : Ref)
    (hne : r.idnum ≠ i) : getObject st' r = getObject st r := by
  obtain ⟨hm, st₁, hs, hst', hr⟩ := addObject_pop_inv h
  subst hst'
  refine getObject_congr r ?_ ?_ ?_
  · exact storeAdd_objects_other hs (by simp [hne])
  · show (r.idnum ∈ st₁.allocatedPlaceholders.erase i) = _
    rw [storeAdd_placeholders hs]
    exact propext (List.mem_erase_of_ne hne)
  · exact storeAdd_streams_other hs hne

theorem pending_pop_ne {st : WState} {obj os j st' r'} {i : Nat}
    (hp : pendingAt st i) (hne : i ≠ j)
    (h : addObject st obj os (some j) = .ok (st', r')) :
    pendingAt st' i := by
  obtain ⟨hm, st₁, hs, hst', hr⟩ := addObject_pop_inv h
  subst hst'
  obtain ⟨hmem, hle, hobj, hstr⟩ := hp
  refine ⟨?_, ?_, ?_, ?_⟩
  · show i ∈ st₁.allocatedPlaceholders.erase j
    rw [storeAdd_placeholders hs]
    exact (List.mem_erase_of_ne hne).mpr hmem
  · have := storeAdd_lastobj hs
    show i ≤ st₁.lastobjId
    omega
  · show lookupA st₁.objects (0, i) = none
    rw [storeAdd_objects_other hs (by simp [hne])]
    exact hobj
  · show lookupA st₁.objsInStreams i = none
    rw [storeAdd_streams_other hs hne]
    exact hstr

theorem streams_pop {st : WState} {obj os j st' r'}
    (h : addObject st obj os (some j) = .ok (st', r')) (i : Nat) (v : PdfObj)
    (hl : lookupA st'.objsInStreams i = some v) :
    lookupA st.objsInStreams i = some v ∨ v = obj := by
  obtain ⟨hm, st₁, hs, hst', hr⟩ := addObject_pop_inv h
  subst hst'
  rcases storeAdd_inv hs with h1 | ⟨six, os', _, _, h1⟩ <;> subst h1
  · exact Or.inl hl
  · by_cases hij : i = j
    · subst hij
      rw [show lookupA ({ st with
          objectStreams := st.objectStreams.set six os',
          objsInStreams := upsertA st.objsInStreams i obj} :
            WState).objsInStreams i = some obj from lookupA_upsert_self _ _ _]
          at hl
      exact Or.inr (by injection hl.symm)
    · rw [show lookupA ({ st with
          objectStreams := st.objectStreams.set six os',
          objsInStreams := upsertA st.objsInStreams j obj} :
            WState).objsInStreams i = lookupA st.objsInStreams i from
          lookupA_upsert_ne _ _ hij] at hl
      exact Or.inl hl

/-- Invariant relating the writer state and remap table across one import
step: the allocation cursor only grows; resolution of pre-existing ids is
unchanged; the remap table only grows; well-formedness and pre-existing
pending placeholders are preserved; anything newly placed in
`objs_in_streams` is not objstream-forbidden. -/
def impInv (st st' : WState) (rm rm' : List (Ref × Ref)) : Prop :=
  st.lastobjId ≤ st'.lastobjId ∧
  (∀ r : Ref, r.idnum ≤ st.lastobjId → getObject st' r = getObject st r) ∧
  (∀ r ρ, lookupA rm r = some ρ → lookupA rm' r = some ρ) ∧
  (st.wf → st'.wf) ∧
  (∀ i, i ≤ st.lastobjId → pendingAt st i → pendingAt st' i) ∧
  (∀ i v, lookupA st'.objsInStreams i = some v →
      lookupA st.objsInStreams i = some v ∨ v.objstreamForbidden = false)

theorem impInv_refl (st : WState) (rm : List (Ref × Ref)) : impInv st st rm rm :=
  ⟨le_refl _, fun _ _ => rfl, fun _ _ h => h, id, fun _ _ h => h,
    fun _ _ h => Or.inl h⟩

theorem impInv_trans {st₁ st₂ st₃ : WState} {rm₁ rm₂ rm₃ : List (Ref × Ref)}
    (h1 : impInv st₁ st₂ rm₁ rm₂) (h2 : impInv st₂ st₃ rm₂ rm₃) :
    impInv st₁ st₃ rm₁ rm₃ := by
  obtain ⟨a1, b1, c1, d1, e1, f1⟩ := h1
  obtain ⟨a2, b2, c2, d2, e2, f2⟩ := h2
  refine ⟨le_trans a1 a2, ?_, ?_, fun h => d2 (d1 h), ?_, ?_⟩
  · intro r hr
    rw [b2 r (le_trans hr a1), b1 r hr]
  · intro r ρ h
    exact c2 r ρ (c1 r ρ h)
  · intro i hi hp
    exact e2 i (le_trans hi a1) (e1 i hi hp)
  · intro i v h
    rcases f2 i v h with h' | h'
    · exact f1 i v h'
    · exact Or.inr h'

theorem impInv_allocate (st : WState) (rm : List (Ref × Ref)) :
    impInv st (allocatePlaceholder st).1 rm rm :=
  ⟨Nat.le_succ _, fun r hr => getObject_allocate r hr, fun _ _ h => h,
    wf_allocate, fun _ _ hp => pending_allocate_le hp, fun _ _ h => Or.inl h⟩

theorem streams_pop_none {st : WState} {obj j st' r'}
    (h : addObject st obj none (some j) = .ok (st', r')) :
    st'.objsInStreams = st.objsInStreams := by
  obtain ⟨hm, st₁, hs, hst', hr⟩ := addObject_pop_inv h
  subst hst'
  rcases storeAdd_inv hs with h1 | ⟨six, os', hos, _, h1⟩
  · subst h1; rfl
  · cases hos

/-- Structural invariant of `_import_object` (and its list helpers), for any
fuel: on success the step satisfies `impInv`. -/
theorem import_L1 (fr : FMap) : ∀ fuel : Nat,
    (∀ (obj : PdfObj) (st : WState) (rm : List (Ref × Ref)) (os : Option Nat)
        (o' : PdfObj) (st' : WState) (rm' : List (Ref × Ref)),
      importObj fr fuel obj st rm os = .ok (o', st', rm') →
      impInv st st' rm rm') ∧
    (∀ (entries : List (String × PdfObj)) (st : WState)
        (rm : List (Ref × Ref)) (os : Option Nat) es' (st' : WState) rm',
      importEntries fr fuel entries st rm os = .ok (es', st', rm') →
      impInv st st' rm rm') ∧
    (∀ (elems : List PdfObj) (st : WState) (rm : List (Ref × Ref))
        (os : Option Nat) es' (st' : WState) rm',
      importList fr fuel elems st rm os = .ok (es', st', rm') →
      impInv st st' rm rm') := by
  intro fuel
  induction fuel with
  | zero =>
    refine ⟨?_, ?_, ?_⟩
    · intro obj st rm os o' st' rm' h
      simp [importObj] at h
    · intro entries st rm os es' st' rm' h
      match entries with
      | [] =>
        simp only [importEntries] at h
        injection h with h
        injection h with h1 h
        injection h with h2 h3
        subst h2
        subst h3
        exact impInv_refl st rm
      | (k, v) :: rest =>
        simp [importEntries, importObj] at h
    · intro elems st rm os es' st' rm' h
      match elems with
      | [] =>
        simp only [importList] at h
        injection h with h
        injection h with h1 h
        injection h with h2 h3
        subst h2
        subst h3
        exact impInv_refl st rm
      | v :: rest =>
        simp [importList, importObj] at h
  | succ f ih =>
    obtain ⟨ihO, ihE, ihL⟩ := ih
    have hObj : ∀ (obj : PdfObj) (st : WState) (rm : List (Ref × Ref))
        (os : Option Nat) (o' : PdfObj) (st' : WState) (rm' : List (Ref × Ref)),
        importObj fr (f + 1) obj st rm os = .ok (o', st', rm') →
        impInv st st' rm rm' := by
      intro obj st rm os o' st' rm' h
      match obj with
      | .null | .boolean _ | .num _ | .name _ | .str _ =>
        simp only [importObj] at h
        injection h with h
        injection h with h1 h
        injection h with h2 h3
        subst h2
        subst h3
        exact impInv_refl st rm
      | .proxy dec =>
        simp only [importObj] at h
        exact ihO dec st rm os o' st' rm' h
      | .dict entries =>
        simp only [importObj] at h
        split at h
        · cases h
        · rename_i p heq
          injection h with h
          injection h with h1 h
          injection h with h2 h3
          subst h2
          subst h3
          exact ihE entries st rm os _ _ _ heq
      | .stream entries data =>
        simp only [importObj] at h
        split at h
        · cases h
        · rename_i p heq
          injection h with h
          injection h with h1 h
          injection h with h2 h3
          subst h2
          subst h3
          exact ihE entries st rm os _ _ _ heq
      | .array elems =>
        simp only [importObj] at h
        split at h
        · cases h
        · rename_i p heq
          injection h with h
          injection h with h1 h
          injection h with h2 h3
          subst h2
          subst h3
          exact ihL elems st rm os _ _ _ heq
      | .ref r =>
        simp only [importObj] at h
        split at h
        · rename_i newRef hlk
          injection h with h
          injection h with h1 h
          injection h with h2 h3
          subst h2
          subst h3
          exact impInv_refl st rm
        · rename_i hlk
          split at h
          · cases h
          · rename_i refd hres
            split at h
            · cases h
            · rename_i q imported st₂ rm₂ hinner
              split at h
              · cases h
              · rename_i st₃ r₃ hpop
                injection h with h
                injection h with h1 h
                injection h with h2 h3
                subst h2
                subst h3
                -- assemble impInv st st' rm rm' from the three steps
                have hInner : impInv (allocatePlaceholder st).1 st₂
                    (upsertA rm r (allocatePlaceholder st).2) rm₂ :=
                  ihO refd _ _ os _ _ _ hinner
                obtain ⟨ia, ib, ic, id', ie, if'⟩ := hInner
                have hL1 : (allocatePlaceholder st).1.lastobjId =
                    st.lastobjId + 1 := rfl
                have hIdnum : (allocatePlaceholder st).2.idnum =
                    st.lastobjId + 1 := rfl
                refine ⟨?_, ?_, ?_, ?_, ?_, ?_⟩
                · have := addObject_pop_lastobj hpop
                  omega
                · intro rr hrr
                  rw [getObject_pop_ne hpop rr (by omega)]
                  rw [ib rr (by omega)]
                  exact getObject_allocate rr hrr
                · intro rr ρ hρ
                  refine ic rr ρ ?_
                  rw [lookupA_upsert_ne _ _ ?_]
                  · exact hρ
                  · intro hc
                    rw [hc] at hρ
                    rw [hlk] at hρ
                    cases hρ
                · intro hwf
                  exact wf_addObject (id' (wf_allocate hwf)) hpop
                · intro i hi hp
                  refine pending_pop_ne ?_ (by omega) hpop
                  exact ie i (by omega) (pending_allocate_le hp)
                · intro i v hv
                  by_cases hforb : imported.objstreamForbidden
                  · rw [if_pos hforb] at hpop
                    rw [streams_pop_none hpop] at hv
                    exact if' i v hv
                  · rcases streams_pop hpop i v hv with h' | h'
                    · exact if' i v h'
                    · subst h'
                      exact Or.inr (by simpa using hforb)
    refine ⟨hObj, ?_, ?_⟩
    · intro entries
      induction entries with
      | nil =>
        intro st rm os es' st' rm' h
        simp only [importEntries] at h
        injection h with h
        injection h with h1 h
        injection h with h2 h3
        subst h2
        subst h3
        exact impInv_refl st rm
      | cons kv rest ihrest =>
        obtain ⟨k, v⟩ := kv
        intro st rm os es' st' rm' h
        simp only [importEntries] at h
        split at h
        · cases h
        · rename_i p v' st₁ rm₁ hobj
          split at h
          · cases h
          · rename_i q rest' st₂ rm₂ hrest
            injection h with h
            injection h with h1 h
            injection h with h2 h3
            subst h2
            subst h3
            exact impInv_trans (hObj v st rm os _ _ _ hobj)
              (ihrest _ _ _ _ _ _ hrest)
    · intro elems
      induction elems with
      | nil =>
        intro st rm os es' st' rm' h
        simp only [importList] at h
        injection h with h
        injection h with h1 h
        injection h with h2 h3
        subst h2
        subst h3
        exact impInv_refl st rm
      | cons v rest ihrest =>
        intro st rm os es' st' rm' h
        simp only [importList] at h
        split at h
        · cases h
        · rename_i p v' st₁ rm₁ hobj
          split at h
          · cases h
          · rename_i q rest' st₂ rm₂ hrest
            injection h with h
            injection h with h1 h
            injection h with h2 h3
            subst h2
            subst h3
            exact impInv_trans (hObj v st rm os _ _ _ hobj)
              (ihrest _ _ _ _ _ _ hrest)

mutual

/-- References occurring in a value. -/
def refsIn : PdfObj → List Ref
  | .ref r => [r]
  | .proxy p => refsIn p
  | .array es => refsInList es
  | .dict es => refsInEntries es
  | .stream es _ => refsInEntries es
  | _ => []

def refsInList : List PdfObj → List Ref
  | [] => []
  | v :: rest => refsIn v ++ refsInList rest

def refsInEntries : List (String × PdfObj) → List Ref
  | [] => []
  | (_, v) :: rest => refsIn v ++ refsInEntries rest

end

/-- Every reference in the value lies in the domain `D` (the value graph is
closed: no dangling edges). -/
def closedUnder (D : List Ref) (o : PdfObj) : Prop := ∀ r ∈ refsIn o, r ∈ D

theorem refsInEntries_mem {es : List (String × PdfObj)} {k : String}
    {v : PdfObj} (h : (k, v) ∈ es) : ∀ r ∈ refsIn v, r ∈ refsInEntries es := by
  induction es with
  | nil => cases h
  | cons kv rest ih =>
    obtain ⟨k', v'⟩ := kv
    intro r hr
    rcases List.mem_cons.mp h with h1 | h1
    · injection h1 with e1 e2
      subst e2
      exact List.mem_append_left _ hr
    · exact List.mem_append_right _ (ih h1 r hr)

theorem refsInList_mem {es : List PdfObj} {v : PdfObj} (h : v ∈ es) :
    ∀ r ∈ refsIn v, r ∈ refsInList es := by
  induction es with
  | nil => cases h
  | cons v' rest ih =>
    intro r hr
    rcases List.mem_cons.mp h with h1 | h1
    · subst h1
      exact List.mem_append_left _ hr
    · exact List.mem_append_right _ (ih h1 r hr)

/-- Number of domain references not yet in the remap table. -/
def unmapped (D : List Ref) (rm : List (Ref × Ref)) : Nat :=
  (D.filter fun r => (lookupA rm r).isNone).length

theorem filter_length_mono {α : Type} {p q : α → Bool}
    (h : ∀ a, p a = true → q a = true) :
    ∀ l : List α, (l.filter p).length ≤ (l.filter q).length := by
  intro l
  induction l with
  | nil => exact le_refl _
  | cons a rest ih =>
    by_cases hp : p a = true
    · rw [List.filter_cons_of_pos hp, List.filter_cons_of_pos (h a hp)]
      simpa using ih
    · rw [List.filter_cons_of_neg (by simpa using hp)]
      by_cases hq : q a = true
      · rw [List.filter_cons_of_pos hq]
        exact le_trans ih (by simp)
      · rw [List.filter_cons_of_neg (by simpa using hq)]
        exact ih

theorem unmapped_le_of_extends {D : List Ref} {rm rm' : List (Ref × Ref)}
    (h : ∀ r ρ, lookupA rm r = some ρ → lookupA rm' r = some ρ) :
    unmapped D rm' ≤ unmapped D rm := by
  refine filter_length_mono ?_ D
  intro a ha
  rw [Option.isNone_iff_eq_none] at ha ⊢
  match hl : lookupA rm a with
  | none => rfl
  | some ρ => rw [h a ρ hl] at ha; cases ha

theorem unmapped_upsert {D : List Ref} (hnd : D.Nodup) {rm : List (Ref × Ref)}
    {r ρ} (hr : r ∈ D) (hnone : lookupA rm r = none) :
    unmapped D (upsertA rm r ρ) + 1 = unmapped D rm := by
  induction D with
  | nil => cases hr
  | cons a rest ih =>
    have hndr : rest.Nodup := hnd.of_cons
    have hna : a ∉ rest := (List.nodup_cons.mp hnd).1
    rcases List.mem_cons.mp hr with h1 | h1
    · subst h1
      have heq : rest.filter (fun x => (lookupA (upsertA rm r ρ) x).isNone) =
          rest.filter (fun x => (lookupA rm x).isNone) := by
        refine List.filter_congr ?_
        intro b hb
        rw [lookupA_upsert_ne _ _ (fun hc => hna (by rw [← hc]; exact hb))]
      unfold unmapped
      rw [List.filter_cons_of_neg (by simp [lookupA_upsert_self]),
        List.filter_cons_of_pos (by simp [hnone]), heq]
      simp
    · have har : a ≠ r := fun hc => hna (by rw [hc]; exact h1)
      have hlook : lookupA (upsertA rm r ρ) a = lookupA rm a :=
        lookupA_upsert_ne _ _ har
      unfold unmapped
      by_cases hpa : (lookupA rm a).isNone
      · rw [List.filter_cons_of_pos (by simp [hlook, hpa]),
          List.filter_cons_of_pos (by simpa using hpa)]
        have := ih hndr h1
        unfold unmapped at this
        simp only [List.length_cons]
        omega
      · rw [List.filter_cons_of_neg (by simp [hlook]; simpa using hpa),
          List.filter_cons_of_neg (by simpa using hpa)]
        exact ih hndr h1

theorem unmapped_pos {D : List Ref} {rm : List (Ref × Ref)} {r : Ref}
    (hr : r ∈ D) (hnone : lookupA rm r = none) : 1 ≤ unmapped D rm := by
  have hmem : r ∈ D.filter fun x => (lookupA rm x).isNone :=
    List.mem_filter.mpr ⟨hr, by simp [hnone]⟩
  exact List.length_pos.mpr (List.ne_nil_of_mem hmem)

/-- The import precondition: a closed, finite domain `D` of resolvable
references whose self-owned ids are at most `B` (within the cursor), with
resolved values closed under `D` and of size at most `MS`. -/
def impGood (fr : FMap) (D : List Ref) (B MS : Nat) (st : WState) : Prop :=
  D.Nodup ∧ B ≤ st.lastobjId ∧
  (∀ r ∈ D, r.pdf = selfTok → r.idnum ≤ B) ∧
  (∀ r ∈ D, ∃ v, resolveRef st fr r = .ok v ∧ closedUnder D v ∧ sizeOf v ≤ MS)

theorem impGood_mono {fr : FMap} {D : List Ref} {B MS : Nat} {st st' : WState}
    {rm rm' : List (Ref × Ref)} (hg : impGood fr D B MS st)
    (hinv : impInv st st' rm rm') : impGood fr D B MS st' := by
  obtain ⟨g1, g2, g3, g4⟩ := hg
  refine ⟨g1, le_trans g2 hinv.1, g3, ?_⟩
  intro r hr
  obtain ⟨v, hv, hc, hs⟩ := g4 r hr
  refine ⟨v, ?_, hc, hs⟩
  unfold resolveRef at hv ⊢
  by_cases hpdf : r.pdf = selfTok
  · rw [if_pos hpdf] at hv ⊢
    rw [hinv.2.1 r (le_trans (g3 r hr hpdf) g2)]
    exact hv
  · rw [if_neg hpdf] at hv ⊢
    exact hv

/-- Witness for C4: a map with one direct and one in-container entry. -/
theorem c4_xref_stream_format_witness :
    pdEx2 ≠ [] ∧ (pdEx2.map idOf).Nodup ∧
      (∀ e ∈ pdEx2, genOk (entryOf e) = true) ∧
      (∃ cs, contiguousXrefChunks pdEx2 = some cs ∧
        renderXrefStream pdEx2 = .ok ⟨[1, 8, 2],
          0 :: 1 :: cs.flatMap (fun fc => [fc.1, fc.2.length]),
          (List.replicate 9 0 ++ [255, 255]) ++
            cs.flatMap fun fc => fc.2.flatMap byteEnc⟩ ∧
        runIds cs = (sortedEntries pdEx2).map idOf ∧
        cs.flatMap (fun fc => fc.2) = (sortedEntries pdEx2).map entryOf ∧
        List.Chain' (· < ·) ((sortedEntries pdEx2).map idOf)) :=
  ⟨by decide, by decide, by decide,
    (c4_xref_stream_format pdEx2 (by decide) (by decide) (by decide)).1⟩

theorem closed_ref {D : List Ref} {r : Ref} (h : closedUnder D (.ref r)) :
    r ∈ D := h r (by rw [refsIn]; exact List.mem_singleton.mpr rfl)

theorem closed_proxy {D : List Ref} {dec : PdfObj}
    (h : closedUnder D (.proxy dec)) : closedUnder D dec :=
  fun r hr => h r (by rw [refsIn]; exact hr)

theorem closed_dict {D : List Ref} {es : List (String × PdfObj)}
    (h : closedUnder D (.dict es)) : ∀ kv ∈ es, closedUnder D kv.2 := by
  intro kv hkv r hr
  refine h r ?_
  rw [refsIn]
  exact refsInEntries_mem (by rw [← Prod.mk.eta (p := kv)] at hkv; exact hkv) r hr

theorem closed_stream {D : List Ref} {es : List (String × PdfObj)}
    {data : List Nat} (h : closedUnder D (.stream es data)) :
    ∀ kv ∈ es, closedUnder D kv.2 := by
  intro kv hkv r hr
  refine h r ?_
  rw [refsIn]
  exact refsInEntries_mem (by rw [← Prod.mk.eta (p := kv)] at hkv; exact hkv) r hr

theorem closed_array {D : List Ref} {es : List PdfObj}
    (h : closedUnder D (.array es)) : ∀ v ∈ es, closedUnder D v := by
  intro v hv r hr
  refine h r ?_
  rw [refsIn]
  exact refsInList_mem hv r hr

/-- Fuel sufficiency for `_import_object`: with fuel exceeding
`unmapped · (MS + 1) + size`, the import never runs out of fuel — the
source recursion terminates on every closed value graph. -/
theorem import_L2 (fr : FMap) (D : List Ref) (B MS : Nat) : ∀ fuel : Nat,
    (∀ (obj : PdfObj) (st : WState) (rm : List (Ref × Ref)) (os : Option Nat),
      impGood fr D B MS st → closedUnder D obj →
      unmapped D rm * (MS + 1) + sizeOf obj < fuel →
      importObj fr fuel obj st rm os ≠ .error .fuel) ∧
    (∀ (entries : List (String × PdfObj)) (st : WState)
        (rm : List (Ref × Ref)) (os : Option Nat),
      impGood fr D B MS st → (∀ kv ∈ entries, closedUnder D kv.2) →
      unmapped D rm * (MS + 1) + sizeOf entries < fuel →
      importEntries fr fuel entries st rm os ≠ .error .fuel) ∧
    (∀ (elems : List PdfObj) (st : WState) (rm : List (Ref × Ref))
        (os : Option Nat),
      impGood fr D B MS st → (∀ v ∈ elems, closedUnder D v) →
      unmapped D rm * (MS + 1) + sizeOf elems < fuel →
      importList fr fuel elems st rm os ≠ .error .fuel) := by
  intro fuel
  induction fuel with
  | zero =>
    refine ⟨?_, ?_, ?_⟩ <;> (intro _ _ _ _ _ _ hlt; omega)
  | succ f ih =>
    obtain ⟨ihO, ihE, ihL⟩ := ih
    have hObj : ∀ (obj : PdfObj) (st : WState) (rm : List (Ref × Ref))
        (os : Option Nat),
        impGood fr D B MS st → closedUnder D obj →
        unmapped D rm * (MS + 1) + sizeOf obj < f + 1 →
        importObj fr (f + 1) obj st rm os ≠ .error .fuel := by
      intro obj st rm os hg hc hfuel
      match obj with
      | .null | .boolean _ | .num _ | .name _ | .str _ =>
        simp [importObj]
      | .proxy dec =>
        simp only [importObj]
        refine ihO dec st rm os hg (closed_proxy hc) ?_
        have : sizeOf dec < sizeOf (PdfObj.proxy dec) := by
          simp only [PdfObj.proxy.sizeOf_spec]
          omega
        omega
      | .dict es =>
        simp only [importObj]
        split
        · rename_i e heq
          have : sizeOf es < sizeOf (PdfObj.dict es) := by
            simp only [PdfObj.dict.sizeOf_spec]
            omega
          have h2 := ihE es st rm os hg (closed_dict hc) (by omega)
          intro hcon
          injection hcon with hcon
          subst hcon
          exact h2 heq
        · simp
      | .stream es data =>
        simp only [importObj]
        split
        · rename_i e heq
          have : sizeOf es < sizeOf (PdfObj.stream es data) := by
            simp only [PdfObj.stream.sizeOf_spec]
            omega
          have h2 := ihE es st rm os hg (closed_stream hc) (by omega)
          intro hcon
          injection hcon with hcon
          subst hcon
          exact h2 heq
        · simp
      | .array es =>
        simp only [importObj]
        split
        · rename_i e heq
          have : sizeOf es < sizeOf (PdfObj.array es) := by
            simp only [PdfObj.array.sizeOf_spec]
            omega
          have h2 := ihL es st rm os hg (closed_array hc) (by omega)
          intro hcon
          injection hcon with hcon
          subst hcon
          exact h2 heq
        · simp
      | .ref r =>
        simp only [importObj]
        split
        · simp
        · rename_i hlk
          split
          · simp
          · rename_i refd hres2
            have hrD : r ∈ D := closed_ref hc
            obtain ⟨v, hres, hcv, hsv⟩ := hg.2.2.2 r hrD
            rw [hres] at hres2
            injection hres2 with hres2
            subst hres2
            have hgood' : impGood fr D B MS (allocatePlaceholder st).1 :=
              impGood_mono hg (impInv_allocate st rm)
            have hup := unmapped_upsert hg.1 hrD hlk
              (ρ := (allocatePlaceholder st).2)
            have hfuel' : unmapped D
                (upsertA rm r (allocatePlaceholder st).2) * (MS + 1) +
                sizeOf v < f := by
              have hexp : unmapped D rm * (MS + 1) =
                  unmapped D (upsertA rm r (allocatePlaceholder st).2) *
                    (MS + 1) + (MS + 1) := by
                rw [← hup]
                ring
              have hs0 : 0 < sizeOf (PdfObj.ref r) := by
                simp [PdfObj.ref.sizeOf_spec]
              omega
            have hinner := ihO v (allocatePlaceholder st).1
              (upsertA rm r (allocatePlaceholder st).2) os hgood' hcv hfuel'
            split
            · rename_i e heq
              intro hcon
              injection hcon with hcon
              subst hcon
              exact hinner heq
            · rename_i q imported st₂ rm₂ heq
              split
              · simp
              · simp
    refine ⟨hObj, ?_, ?_⟩
    · intro entries
      induction entries with
      | nil =>
        intro st rm os hg hc hfuel
        simp [importEntries]
      | cons kv rest ihrest =>
        obtain ⟨k, v⟩ := kv
        intro st rm os hg hc hfuel
        have hsv : sizeOf v < sizeOf ((k, v) :: rest) := by
          simp only [List.cons.sizeOf_spec, Prod.mk.sizeOf_spec]
          omega
        have hsr : sizeOf rest < sizeOf ((k, v) :: rest) := by
          simp only [List.cons.sizeOf_spec, Prod.mk.sizeOf_spec]
          omega
        simp only [importEntries]
        split
        · rename_i e heq
          have h2 := hObj v st rm os hg (hc (k, v) (List.mem_cons_self _ _))
            (by omega)
          intro hcon
          injection hcon with hcon
          subst hcon
          exact h2 heq
        · rename_i p v' st₁ rm₁ heq
          have hinv := (import_L1 fr (f + 1)).1 v st rm os v' st₁ rm₁ heq
          have hgood₁ : impGood fr D B MS st₁ := impGood_mono hg hinv
          have hle : unmapped D rm₁ ≤ unmapped D rm :=
            unmapped_le_of_extends hinv.2.2.1
          have hmul : unmapped D rm₁ * (MS + 1) ≤ unmapped D rm * (MS + 1) :=
            Nat.mul_le_mul_right _ hle
          split
          · rename_i e heq2
            have h2 := ihrest st₁ rm₁ os hgood₁
              (fun x hx => hc x (List.mem_cons_of_mem _ hx)) (by omega)
            intro hcon
            injection hcon with hcon
            subst hcon
            exact h2 heq2
          · simp
    · intro elems
      induction elems with
      | nil =>
        intro st rm os hg hc hfuel
        simp [importList]
      | cons v rest ihrest =>
        intro st rm os hg hc hfuel
        have hsv : sizeOf v < sizeOf (v :: rest) := by
          simp only [List.cons.sizeOf_spec]
          omega
        have hsr : sizeOf rest < sizeOf (v :: rest) := by
          simp only [List.cons.sizeOf_spec]
          omega
        simp only [importList]
        split
        · rename_i e heq
          have h2 := hObj v st rm os hg (hc v (List.mem_cons_self _ _))
            (by omega)
          intro hcon
          injection hcon with hcon
          subst hcon
          exact h2 heq
        · rename_i p v' st₁ rm₁ heq
          have hinv := (import_L1 fr (f + 1)).1 v st rm os v' st₁ rm₁ heq
          have hgood₁ : impGood fr D B MS st₁ := impGood_mono hg hinv
          have hle : unmapped D rm₁ ≤ unmapped D rm :=
            unmapped_le_of_extends hinv.2.2.1
          have hmul : unmapped D rm₁ * (MS + 1) ≤ unmapped D rm * (MS + 1) :=
            Nat.mul_le_mul_right _ hle
          split
          · rename_i e heq2
            have h2 := ihrest st₁ rm₁ os hgood₁
              (fun x hx => hc x (List.mem_cons_of_mem _ hx)) (by omega)
            intro hcon
            injection hcon with hcon
            subst hcon
            exact h2 heq2
          · simp

theorem getObject_ok_bound {st : WState} {r : Ref} {v : PdfObj} (hwf : st.wf)
    (h : getObject st r = .ok v) : r.idnum ≤ st.lastobjId := by
  unfold getObject at h
  split at h
  · cases h
  · split at h
    · rename_i obj hobj
      exact hwf.2.1 _ (lookupA_mem hobj)
    · split at h
      · split at h
        · rename_i hmem
          exact (hwf.1 _ hmem).1
        · split at h
          · rename_i obj hobj
            exact hwf.2.2.1 _ (lookupA_mem hobj)
          · cases h
      · cases h

/-- Inversion of `_import_object` on an unseen reference: the resolved value
is imported into a placeholder allocated before the recursion, and the
placeholder's reference (`_lastobj_id + 1`) is returned. -/
theorem importObj_ref_inv {fr : FMap} {f : Nat} {r : Ref} {st : WState}
    {rm : List (Ref × Ref)} {os : Option Nat} {o' : PdfObj} {st' : WState}
    {rm' : List (Ref × Ref)} (hlk : lookupA rm r = none)
    (h : importObj fr (f + 1) (.ref r) st rm os = .ok (o', st', rm')) :
    ∃ refd imported st₂ r₃,
      resolveRef st fr r = .ok refd ∧
      importObj fr f refd (allocatePlaceholder st).1
        (upsertA rm r (allocatePlaceholder st).2) os =
        .ok (imported, st₂, rm') ∧
      addObject st₂ imported
        (if imported.objstreamForbidden then none else os)
        (some (st.lastobjId + 1)) = .ok (st', r₃) ∧
      o' = .ref ⟨selfTok, st.lastobjId + 1, 0⟩ := by
  simp only [importObj] at h
  split at h
  · rename_i newRef hlk2
    rw [hlk] at hlk2
    cases hlk2
  · split at h
    · cases h
    · rename_i refd hres
      split at h
      · cases h
      · rename_i q imported st₂ rm₂ hinner
        split at h
        · cases h
        · rename_i st₃ r₃ hpop
          injection h with h
          injection h with h1 h
          injection h with h2 h3
          subst h2
          subst h3
          exact ⟨refd, imported, st₂, r₃, hres, hinner, hpop, h1.symm⟩

unseal importObj importEntries importList

/-- A foreign store with one self-referential dictionary. -/
def frSelf : FMap := [(⟨1, 1, 0⟩, .dict [("Self", .ref ⟨1, 1, 0⟩)])]

theorem frSelf_good : impGood frSelf [⟨1, 1, 0⟩] 0 10000 stW0 := by
  refine ⟨by decide, by decide, by decide, ?_⟩
  intro r hr
  have hre : r = ⟨1, 1, 0⟩ := by simpa using hr
  subst hre
  exact ⟨.dict [("Self", .ref ⟨1, 1, 0⟩)], rfl,
    by unfold closedUnder; decide, by decide⟩

/-- C2, import termination and cycle safety. For every closed value graph
(domain `D` of resolvable references with closed resolved values),
the import recursion never exhausts a fuel budget above
`unmapped · (MS + 1) + size` — it terminates; a foreign reference already in
the remap table immediately returns its previously assigned new reference
without touching the store; and importing a self-referential dictionary
produces one new object of the same self-referential shape (a single id is
allocated: no duplicates for the shared node). -/
theorem c2_import_termination (fr : FMap) (D : List Ref) (B MS : Nat)
    (obj : PdfObj) (st : WState) (os : Option Nat) (fuel : Nat)
    (hgood : impGood fr D B MS st) (hclosed : closedUnder D obj)
    (hfuel : unmapped D [] * (MS + 1) + sizeOf obj < fuel) :
    importObject fr fuel obj st os ≠ .error .fuel ∧
    (∀ (f' : Nat) (rm : List (Ref × Ref)) (r ρ : Ref) (st₀ : WState)
        (os' : Option Nat), lookupA rm r = some ρ →
      importObj fr (f' + 1) (.ref r) st₀ rm os' = .ok (.ref ρ, st₀, rm)) ∧
    importObject frSelf 3 (.ref ⟨1, 1, 0⟩) stW0 none =
      .ok (.ref ⟨selfTok, 1, 0⟩,
        ⟨[((0, 1), .dict [("Self", .ref ⟨selfTok, 1, 0⟩)])], [], [], 1, []⟩,
        [(⟨1, 1, 0⟩, ⟨selfTok, 1, 0⟩)]) := by
  refine ⟨(import_L2 fr D B MS fuel).1 obj st [] os hgood hclosed hfuel,
    ?_, by rfl⟩
  intro f' rm r ρ st₀ os' hlk
  simp [importObj, hlk]

/-- Witness for C2: the self-referential foreign dictionary. -/
theorem c2_import_termination_witness :
    impGood frSelf [⟨1, 1, 0⟩] 0 10000 stW0 ∧
    closedUnder [⟨1, 1, 0⟩] (.ref ⟨1, 1, 0⟩) ∧
    unmapped [⟨1, 1, 0⟩] [] * 10001 + sizeOf (PdfObj.ref ⟨1, 1, 0⟩) < 20000 ∧
    importObject frSelf 20000 (.ref ⟨1, 1, 0⟩) stW0 none ≠ .error .fuel :=
  ⟨frSelf_good, by unfold closedUnder; decide, by decide,
    (c2_import_termination frSelf [⟨1, 1, 0⟩] 0 10000 (.ref ⟨1, 1, 0⟩) stW0
      none 20000 frSelf_good (by unfold closedUnder; decide) (by decide)).1⟩

/-- A foreign store holding one raw stream object. -/
def frStream : FMap := [(⟨1, 2, 0⟩, .stream [] [7])]

/-- A writer with one registered (empty) object stream. -/
def stOS : WState := ⟨[], [⟨[], true⟩], [], 0, []⟩

/-- C7, container legality. `ObjectStream.add_object` raises `TypeError`
exactly on stream objects and bare references and records anything else, so
a forbidden value is never silently accepted; on import, values landing in
`objs_in_streams` are never objstream-forbidden (the import silently drops
the requested container for such values); importing a reference to a raw
stream object with a container requested stores it directly, leaving the
batch untouched. -/
theorem c7_objstream_rejection (fr : FMap) :
    (∀ (s : ObjectStream) (i : Nat) (obj : PdfObj),
      (obj.objstreamForbidden = true →
        ObjectStream.addObject s i obj = .error .typeError) ∧
      (obj.objstreamForbidden = false →
        ObjectStream.addObject s i obj =
          .ok { s with objRefs := upsertA s.objRefs i obj })) ∧
    (∀ (fuel : Nat) (obj : PdfObj) (st : WState) (rm : List (Ref × Ref))
        (os : Option Nat) o' (st' : WState) rm',
      importObj fr fuel obj st rm os = .ok (o', st', rm') →
      (∀ i v, lookupA st.objsInStreams i = some v →
        v.objstreamForbidden = false) →
      (∀ i v, lookupA st'.objsInStreams i = some v →
        v.objstreamForbidden = false)) ∧
    importObject frStream 3 (.ref ⟨1, 2, 0⟩) stOS (some 0) =
      .ok (.ref ⟨selfTok, 1, 0⟩,
        ⟨[((0, 1), .stream [] [7])], [⟨[], true⟩], [], 1, []⟩,
        [(⟨1, 2, 0⟩, ⟨selfTok, 1, 0⟩)]) := by
  refine ⟨?_, ?_, by rfl⟩
  · intro s i obj
    constructor
    · intro hf
      simp [ObjectStream.addObject, hf]
    · intro hf
      simp [ObjectStream.addObject, hf]
  · intro fuel obj st rm os o' st' rm' h hstreams i v hv
    rcases ((import_L1 fr fuel).1 obj st rm os o' st' rm' h).2.2.2.2.2 i v hv
      with h' | h'
    · exact hstreams i v h'
    · exact h'

/-- Witness for C7: the raw stream object is rejected by the batch and
the import of a reference to it stores it directly. -/
theorem c7_objstream_rejection_witness :
    (PdfObj.stream [] []).objstreamForbidden = true ∧
    ObjectStream.addObject ⟨[], true⟩ 1 (.stream [] []) = .error .typeError ∧
    (∀ i v, lookupA (⟨[((0, 1), .stream [] [7])], [⟨[], true⟩], [], 1, []⟩ :
        WState).objsInStreams i = some v → v.objstreamForbidden = false) :=
  ⟨rfl,
    ((c7_objstream_rejection frStream).1 ⟨[], true⟩ 1 (.stream [] [])).1 rfl,
    (c7_objstream_rejection frStream).2.1 3 (.ref ⟨1, 2, 0⟩) stOS []
      (some 0) _ _ _ (by rfl) (by intro i v hv; cases hv)⟩

/-- C10, import always allocates a fresh identity. Importing any reference —
foreign or owned by this very writer — returns the freshly allocated
reference `(_lastobj_id + 1, 0)`: never the input reference and never an
identity that previously existed in the store; the deep copy of the resolved
value is populated under that new id. -/
theorem c10_import_fresh_identity (fr : FMap) (f : Nat) (r : Ref)
    (st : WState) (os : Option Nat) (o' : PdfObj) (st' : WState)
    (rm' : List (Ref × Ref)) (hwf : st.wf)
    (h : importObject fr (f + 1) (.ref r) st os = .ok (o', st', rm')) :
    o' = .ref ⟨selfTok, st.lastobjId + 1, 0⟩ ∧
    o' ≠ .ref r ∧
    (∀ g : Nat, getObject st ⟨selfTok, st.lastobjId + 1, g⟩ =
      .error .keyError) ∧
    (∃ w, populatedWith st' (st.lastobjId + 1) w ∧
      getObject st' ⟨selfTok, st.lastobjId + 1, 0⟩ = .ok w) := by
  obtain ⟨refd, imported, st₂, r₃, hres, hinner, hpop, ho⟩ :=
    importObj_ref_inv (rfl : lookupA [] r = none) h
  subst ho
  refine ⟨rfl, ?_, ?_, ?_⟩
  · intro hcon
    injection hcon with hcon
    subst hcon
    have hget : getObject st ⟨selfTok, st.lastobjId + 1, 0⟩ = .ok refd := by
      unfold resolveRef at hres
      rw [if_pos rfl] at hres
      exact hres
    have hb : st.lastobjId + 1 ≤ st.lastobjId := getObject_ok_bound hwf hget
    omega
  · intro g
    have h1 : lookupA st.objects (g, st.lastobjId + 1) = none :=
      lookupA_eq_none fun kv hkv hc => by
        have := hwf.2.1 kv hkv
        rw [hc] at this
        simp at this
    have h2 : st.lastobjId + 1 ∉ st.allocatedPlaceholders := fun hc => by
      have := (hwf.1 _ hc).1
      omega
    have h3 : lookupA st.objsInStreams (st.lastobjId + 1) = none :=
      lookupA_eq_none fun kv hkv hc => by
        have := hwf.2.2.1 kv hkv
        rw [hc] at this
        simp at this
    by_cases hg : g = 0
    · subst hg
      simp [getObject, selfTok, h1, h2, h3]
    · simp [getObject, selfTok, h1, h3, hg]
  · have hinv := (import_L1 fr f).1 refd _ _ os _ _ _ hinner
    have hwf2 : st₂.wf := hinv.2.2.2.1 (wf_allocate hwf)
    have hpend2 : pendingAt st₂ (st.lastobjId + 1) :=
      hinv.2.2.2.2.1 _ (le_refl _) (pending_allocate hwf)
    obtain ⟨hpopd, _⟩ := populated_addObject hwf2 hpend2 hpop
    exact ⟨imported, hpopd, getObject_populated hpopd⟩

/-- Witness for C10: importing a reference owned by the writer itself
duplicates the object under a fresh id. -/
theorem c10_import_fresh_identity_witness :
    stW1.wf ∧
    importObject [] 2 (.ref ⟨selfTok, 1, 0⟩) stW1 none =
      .ok (.ref ⟨selfTok, 2, 0⟩,
        ⟨[((0, 1), .num 7), ((0, 2), .num 7)], [], [], 2, []⟩,
        [(⟨selfTok, 1, 0⟩, ⟨selfTok, 2, 0⟩)]) ∧
    (.ref ⟨selfTok, stW1.lastobjId + 1, 0⟩ : PdfObj) ≠
      .ref ⟨selfTok, 1, 0⟩ := by
  refine ⟨stW1_wf, by rfl, ?_⟩
  exact (c10_import_fresh_identity [] 1 ⟨selfTok, 1, 0⟩ stW1 none _ _ _
    stW1_wf (by rfl)).2.1

/-
Section: page-tree maintainer (`insert_page`, writer.py lines 578-626).

Modelled from the spec: `find_page_container` lives in
`pyhanko.pdf_utils.rw_common`, which is not part of this repository's
sources.  The spec describes it as locating the container node that holds
the page currently at the requested index, together with that page's
position among the container's kids.  Here the page tree is an explicit
inductive value and the locate-then-insert step is realised as a single
descent (`insertKids`): the descent reaches the kid list holding the
target leaf, inserts the new leaf right after it with `/Parent` set to
the containing node, and increments `/Count` on every node on the path --
the same set of nodes the source's upward `/Parent` walk touches.
-/

/-- A page tree: leaves carry the page id and its `/Parent` entry, interior
nodes carry their object id, their `/Count` entry and their `/Kids`. -/
inductive PageTree where
  | leaf (pageId : Nat) (parent : Option Nat)
  | node (nodeId : Nat) (count : Nat) (kids : List PageTree)

mutual

/-- Number of page leaves under a tree. -/
def leafCount : PageTree → Nat
  | .leaf _ _ => 1
  | .node _ _ kids => leafCountL kids

/-- Number of page leaves under a kid list. -/
def leafCountL : List PageTree → Nat
  | [] => 0
  | t :: rest => leafCount t + leafCountL rest

end

mutual

/-- Page ids in document order. -/
def leavesOf : PageTree → List Nat
  | .leaf p _ => [p]
  | .node _ _ kids => leavesOfL kids

/-- Page ids of a kid list in document order. -/
def leavesOfL : List PageTree → List Nat
  | [] => []
  | t :: rest => leavesOf t ++ leavesOfL rest

end

mutual

/-- Well-formedness: every interior node's stored `/Count` equals the
number of page leaves under it. -/
def wfT : PageTree → Prop
  | .leaf _ _ => True
  | .node _ count kids => count = leafCountL kids ∧ wfL kids

/-- Well-formedness of every tree in a kid list. -/
def wfL : List PageTree → Prop
  | [] => True
  | t :: rest => wfT t ∧ wfL rest

end

mutual

/-- Some node with id `cid` in the tree has `k` among its kids. -/
def containsNodeWithKid : PageTree → Nat → PageTree → Prop
  | .leaf _ _, _, _ => False
  | .node nid _ kids, cid, k =>
    (nid = cid ∧ k ∈ kids) ∨ containsNodeWithKidL kids cid k

/-- Some node with id `cid` in the list has `k` among its kids. -/
def containsNodeWithKidL : List PageTree → Nat → PageTree → Prop
  | [], _, _ => False
  | t :: rest, cid, k =>
    containsNodeWithKid t cid k ∨ containsNodeWithKidL rest cid k

end

mutual

/-- Insert page `pid` after the leaf at index `k` (zero-based) below `t`,
incrementing `/Count` on the way down.  Returns the updated tree together
with the id of the container node that received the new leaf; `none` when
`k` is out of range (the source's `find_page_container` raises there). -/
def insertPT : PageTree → Nat → Nat → Option (PageTree × Nat)
  | .leaf _ _, _, _ => none
  | .node nid count kids, k, pid =>
    match insertKids kids k pid nid with
    | some (kids2, cid) => some (.node nid (count + 1) kids2, cid)
    | none => none

/-- Walk a kid list of the node with id `parid` looking for the leaf at
index `k`; once the kid holding it is a leaf, splice the new leaf in right
after it (`kids.insert(kid_ix + 1, new_page_ref)` with the new page's
`/Parent` set to the container). -/
def insertKids : List PageTree → Nat → Nat → Nat → Option (List PageTree × Nat)
  | [], _, _, _ => none
  | t :: rest, k, pid, parid =>
    if k < leafCount t then
      match t with
      | .leaf p q => some (.leaf p q :: .leaf pid (some parid) :: rest, parid)
      | .node nid c ks =>
        match insertPT (.node nid c ks) k pid with
        | some (t2, cid) => some (t2 :: rest, cid)
        | none => none
    else
      match insertKids rest (k - leafCount t) pid parid with
      | some (rest2, cid) => some (t :: rest2, cid)
      | none => none

end

/-- `insert_page`: with `after = some k` insert after page `k`; with
`after = none` read the root's stored `/Count`; a count of `0` corresponds
to the source's `kid_ix = -1` branch (the new page becomes the root's
first kid), otherwise insert after the last page. -/
def insertPage (t : PageTree) (after : Option Nat) (pid : Nat) :
    Option (PageTree × Nat) :=
  match after with
  | some k => insertPT t k pid
  | none =>
    match t with
    | .leaf _ _ => none
    | .node nid count kids =>
      if count = 0 then
        some (.node nid (count + 1) (.leaf pid (some nid) :: kids), nid)
      else
        insertPT (.node nid count kids) (count - 1) pid

/-- Run a sequence of `insert_page` calls; a failing call (out-of-range
index, i.e. an exception in the source) leaves the tree unchanged. -/
def runInserts : PageTree → List (Option Nat × Nat) → PageTree
  | t, [] => t
  | t, (aft, pid) :: rest =>
    match insertPage t aft pid with
    | some (t2, _) => runInserts t2 rest
    | none => runInserts t rest

mutual

theorem leaves_length (t : PageTree) : (leavesOf t).length = leafCount t := by
  cases t with
  | leaf p q => simp [leavesOf, leafCount]
  | node nid count kids =>
    simp only [leavesOf, leafCount]
    exact leavesL_length kids

theorem leavesL_length (l : List PageTree) :
    (leavesOfL l).length = leafCountL l := by
  cases l with
  | nil => simp [leavesOfL, leafCountL]
  | cons t rest =>
    simp only [leavesOfL, leafCountL, List.length_append]
    rw [leaves_length t, leavesL_length rest]

end

theorem insertIdx_append_left {α : Type} (l₂ : List α) (a : α) :
    ∀ (l₁ : List α) (i : Nat), i ≤ l₁.length →
      (l₁ ++ l₂).insertIdx i a = l₁.insertIdx i a ++ l₂ := by
  intro l₁
  induction l₁ with
  | nil =>
    intro i hi
    have hz : i = 0 := by
      simp only [List.length_nil] at hi
      omega
    subst hz
    simp
  | cons b l₁ ih =>
    intro i hi
    cases i with
    | zero => simp
    | succ j =>
      simp only [List.cons_append, List.insertIdx_succ_cons]
      rw [ih j (by simpa using hi)]

theorem insertIdx_append_right {α : Type} (l₂ : List α) (a : α) :
    ∀ (l₁ : List α) (j : Nat),
      (l₁ ++ l₂).insertIdx (l₁.length + j) a = l₁ ++ l₂.insertIdx j a := by
  intro l₁
  induction l₁ with
  | nil => intro j; simp
  | cons b l₁ ih =>
    intro j
    have harith : (b :: l₁).length + j = (l₁.length + j) + 1 := by
      simp only [List.length_cons]
      omega
    rw [harith]
    simp only [List.cons_append, List.insertIdx_succ_cons]
    rw [ih j]

mutual

theorem insertPT_spec (t : PageTree) (k pid : Nat) (t2 : PageTree) (cid : Nat)
    (h : insertPT t k pid = some (t2, cid)) (hwf : wfT t) :
    wfT t2 ∧ leafCount t2 = leafCount t + 1 ∧
    leavesOf t2 = (leavesOf t).insertIdx (k + 1) pid ∧
    containsNodeWithKid t2 cid (.leaf pid (some cid)) := by
  cases t with
  | leaf p q => simp [insertPT] at h
  | node nid count kids =>
    unfold insertPT at h
    split at h
    · rename_i kids2 cid2 heq
      simp only [Option.some.injEq, Prod.mk.injEq] at h
      obtain ⟨h1, h2⟩ := h
      subst h1
      subst h2
      simp only [wfT] at hwf
      obtain ⟨hwc, hwl⟩ := hwf
      obtain ⟨hw2, hc2, hl2, hcont2⟩ :=
        insertKids_spec kids k pid nid kids2 cid2 heq hwl
      refine ⟨?_, ?_, ?_, ?_⟩
      · simp only [wfT]
        exact ⟨by omega, hw2⟩
      · simp only [leafCount]
        omega
      · simp only [leavesOf]
        exact hl2
      · simp only [containsNodeWithKid]
        rcases hcont2 with ⟨hcp, hmem⟩ | hrest
        · subst hcp
          exact Or.inl ⟨rfl, hmem⟩
        · exact Or.inr hrest
    · exact Option.noConfusion h
termination_by sizeOf t

theorem insertKids_spec (kids : List PageTree) (k pid parid : Nat)
    (kids2 : List PageTree) (cid : Nat)
    (h : insertKids kids k pid parid = some (kids2, cid)) (hwf : wfL kids) :
    wfL kids2 ∧ leafCountL kids2 = leafCountL kids + 1 ∧
    leavesOfL kids2 = (leavesOfL kids).insertIdx (k + 1) pid ∧
    ((cid = parid ∧ PageTree.leaf pid (some parid) ∈ kids2) ∨
      containsNodeWithKidL kids2 cid (.leaf pid (some cid))) := by
  cases kids with
  | nil => simp [insertKids] at h
  | cons t rest =>
    simp only [wfL] at hwf
    obtain ⟨hwt, hwrest⟩ := hwf
    unfold insertKids at h
    split at h
    · rename_i hklt
      split at h
      · simp only [Option.some.injEq, Prod.mk.injEq] at h
        obtain ⟨h1, h2⟩ := h
        subst h1
        subst h2
        have hk0 : k = 0 := by
          simp only [leafCount] at hklt
          omega
        subst hk0
        refine ⟨?_, ?_, ?_, ?_⟩
        · simp only [wfL, wfT]
          exact ⟨trivial, trivial, hwrest⟩
        · simp only [leafCountL, leafCount]
          omega
        · simp only [leavesOfL, leavesOf, List.cons_append, List.nil_append,
            List.insertIdx_succ_cons, List.insertIdx_zero]
        · exact Or.inl ⟨rfl, by simp⟩
      · split at h
        · rename_i t2h cid2 heq
          simp only [Option.some.injEq, Prod.mk.injEq] at h
          obtain ⟨h1, h2⟩ := h
          subst h1
          subst h2
          obtain ⟨hw2, hc2, hl2, hcont2⟩ :=
            insertPT_spec _ k pid t2h cid2 heq hwt
          refine ⟨?_, ?_, ?_, ?_⟩
          · simp only [wfL]
            exact ⟨hw2, hwrest⟩
          · simp only [leafCountL]
            omega
          · simp only [leavesOfL]
            rw [hl2]
            exact (insertIdx_append_left _ pid _ (k + 1)
              (by rw [leaves_length]; omega)).symm
          · exact Or.inr (Or.inl hcont2)
        · exact Option.noConfusion h
    · rename_i hkge
      split at h
      · rename_i rest2 cid2 heq
        simp only [Option.some.injEq, Prod.mk.injEq] at h
        obtain ⟨h1, h2⟩ := h
        subst h1
        subst h2
        obtain ⟨hw2, hc2, hl2, hcont2⟩ :=
          insertKids_spec rest (k - leafCount t) pid parid rest2 cid2 heq hwrest
        refine ⟨?_, ?_, ?_, ?_⟩
        · simp only [wfL]
          exact ⟨hwt, hw2⟩
        · simp only [leafCountL]
          omega
        · simp only [leavesOfL]
          rw [hl2]
          have harith : k + 1 = (leavesOf t).length + (k - leafCount t + 1) := by
            rw [leaves_length]
            omega
          rw [harith, insertIdx_append_right (leavesOfL rest) pid
            (leavesOf t) (k - leafCount t + 1)]
        · rcases hcont2 with ⟨hcp, hmem⟩ | hrest2
          · exact Or.inl ⟨hcp, List.mem_cons_of_mem t hmem⟩
          · exact Or.inr (Or.inr hrest2)
      · exact Option.noConfusion h
termination_by sizeOf kids

end

theorem wfT_insertPage (t : PageTree) (aft : Option Nat) (pid : Nat)
    (t2 : PageTree) (cid : Nat) (h : insertPage t aft pid = some (t2, cid))
    (hwf : wfT t) : wfT t2 := by
  cases aft with
  | some k => exact (insertPT_spec t k pid t2 cid h hwf).1
  | none =>
    cases t with
    | leaf p q => simp [insertPage] at h
    | node nid count kids =>
      simp only [insertPage] at h
      split at h
      · simp only [Option.some.injEq, Prod.mk.injEq] at h
        obtain ⟨h1, h2⟩ := h
        subst h1
        simp only [wfT] at hwf
        simp only [wfT, wfL, leafCountL, leafCount]
        exact ⟨by omega, trivial, hwf.2⟩
      · exact (insertPT_spec _ _ _ _ _ h hwf).1

theorem wfT_runInserts (ops : List (Option Nat × Nat)) :
    ∀ t : PageTree, wfT t → wfT (runInserts t ops) := by
  induction ops with
  | nil => intro t h; exact h
  | cons op rest ih =>
    intro t h
    obtain ⟨aft, pid⟩ := op
    cases hins : insertPage t aft pid with
    | none =>
      simp only [runInserts, hins]
      exact ih t h
    | some r =>
      obtain ⟨t2, cid⟩ := r
      simp only [runInserts, hins]
      exact ih t2 (wfT_insertPage t aft pid t2 cid hins h)

/-- C5: after any sequence of `insert_page` calls on a well-formed page
tree, every interior node's stored `/Count` still equals the number of
page leaves under it; inserting a page after index `k` in a well-formed
tree yields one more page, placed at position `k + 1` of the document
order, and the new page's `/Parent` is the node whose kid list received
it. -/
theorem c5_page_tree_insert (t : PageTree) (k pid : Nat) (t2 : PageTree)
    (cid : Nat) (hwf : wfT t)
    (h : insertPage t (some k) pid = some (t2, cid)) :
    (wfT t2 ∧
      (leavesOf t2).length = (leavesOf t).length + 1 ∧
      leavesOf t2 = (leavesOf t).insertIdx (k + 1) pid ∧
      containsNodeWithKid t2 cid (.leaf pid (some cid))) ∧
    ∀ (t0 : PageTree) (ops : List (Option Nat × Nat)),
      wfT t0 → wfT (runInserts t0 ops) := by
  refine ⟨?_, fun t0 ops h0 => wfT_runInserts ops t0 h0⟩
  have h2 : insertPT t k pid = some (t2, cid) := h
  have hs := insertPT_spec t k pid t2 cid h2 hwf
  refine ⟨hs.1, ?_, hs.2.2.1, hs.2.2.2⟩
  rw [leaves_length, leaves_length, hs.2.1]

/-- Concrete two-level page tree: root node 1 over node 2 holding pages
10 and 11. -/
def ptEx : PageTree :=
  .node 1 2 [.node 2 2 [.leaf 10 (some 2), .leaf 11 (some 2)]]

/-- `ptEx` after inserting page 99 right after page index 0. -/
def ptEx2 : PageTree :=
  .node 1 3
    [.node 2 3 [.leaf 10 (some 2), .leaf 99 (some 2), .leaf 11 (some 2)]]

/-- Witness for C5: inserting page 99 after index 0 of `ptEx` bumps both
counts, places 99 at position 1, and parents it under node 2. -/
theorem c5_page_tree_insert_witness :
    wfT ptEx ∧
    insertPage ptEx (some 0) 99 = some (ptEx2, 2) ∧
    wfT ptEx2 ∧
    leavesOf ptEx2 = (leavesOf ptEx).insertIdx 1 99 ∧
    containsNodeWithKid ptEx2 2 (.leaf 99 (some 2)) := by
  have hwf : wfT ptEx := by
    simp [ptEx, wfT, wfL, leafCount, leafCountL]
  have hins : insertPage ptEx (some 0) 99 = some (ptEx2, 2) := by
    simp [ptEx, ptEx2, insertPage, insertPT, insertKids, leafCount, leafCountL]
  have hs := c5_page_tree_insert ptEx 0 99 ptEx2 2 hwf hins
  exact ⟨hwf, hins, hs.1.1, hs.1.2.2.1, hs.1.2.2.2⟩

end PdfSpec
